import Mathlib

/-!
# fibdrv: decimal-string bignum arithmetic and the fast-doubling Fibonacci engine

A shallow embedding of `fast_fibdrv.c` and `fibdrv.c`.

* A `char` array is a `Buf`: an explicit run of cells followed by cells that all
  hold one and the same byte.  Arrays have no capacity limit here, so a
  `memset` over a whole array sets every cell.
* C functions that write through a `char *out` take the buffer and return the
  updated buffer.  No call in the sources aliases `out` with an input.
* `short`, `int`, `long` and `size_t` locals are unbounded integers: every value
  they take is a digit computation (between -10 and 99) or is bounded by a
  string length.  A `char` is its byte value, a natural number below 256.
-/

namespace Fibdrv

/-! ## Memory: `char` arrays -/

/-- A `char` array: `cells` are the bytes at indices `0 .. cells.length - 1`,
every later index holds the byte `fill`. -/
structure Buf where
  cells : List Nat
  fill : Nat
deriving DecidableEq

/-- The array read `b[i]`. -/
def Buf.read (b : Buf) (i : Nat) : Nat := b.cells.getD i b.fill

/-- The array write `b[i] = v`. -/
def Buf.write (b : Buf) (i : Nat) (v : Nat) : Buf :=
  if i < b.cells.length then { b with cells := b.cells.set i v }
  else { b with cells := b.cells ++ List.replicate (i - b.cells.length) b.fill ++ [v] }

/-- The call `memset(x, c, MAX_DATA_SIZE)` over the whole array `x`. -/
def memset (c : Nat) : Buf := { cells := [], fill := c }

/-- Index of the first NUL among the given cells (their number when there is none). -/
def strlenCells : List Nat → Nat
  | [] => 0
  | c :: cs => if c = 0 then 0 else strlenCells cs + 1

/-- The library function `strlen(s)`: the index of the first NUL byte.  When the explicit cells hold
no NUL the scan ends right behind them (correct when `fill` is NUL; a buffer
without any NUL is never passed to `strlen` by the code modelled here). -/
def strlen (s : Buf) : Nat := strlenCells s.cells

/-- The C string held in a buffer: the bytes before the first NUL. -/
def cstr (s : Buf) : List Nat := (List.range (strlen s)).map s.read

/-- A buffer holding the C string `s` (followed by NUL bytes). -/
def ofStr (s : List Nat) : Buf := { cells := s, fill := 0 }

/-- Conversion of an arithmetic result to `char` on assignment. -/
def toChar (x : Int) : Nat := (x % 256).toNat

/-- A C `for (int i = 0; i < n; i++) body` loop whose bound `n` does not change
while the loop runs: `body` is applied for `i = 0, 1, .., n - 1`. -/
def forLoop {σ : Type} (n : Nat) (body : Nat → σ → σ) (s : σ) : σ :=
  match n with
  | 0 => s
  | n + 1 => body n (forLoop n body s)

/-! ## Macros shared by both translation units -/

/-- The macro `_swap(a, b)`: `a ^= b; b ^= a; a ^= b;` on the lvalues `x[i]`, `x[j]`. -/
def _swap (x : Buf) (i j : Nat) : Buf :=
  let x := x.write i (x.read i ^^^ x.read j)
  let x := x.write j (x.read j ^^^ x.read i)
  x.write i (x.read i ^^^ x.read j)

/-- The loop of the macro `_reverse(x)`, entered with loop counter `i`; the
condition `i < strlen(x) >> 1` is evaluated afresh on every round, and
`fuel` bounds the number of rounds. -/
def _reverse_loop : Nat → Nat → Buf → Buf
  | 0, _, x => x
  | fuel + 1, i, x =>
    if i < strlen x >>> 1 then
      if x.read i = x.read (strlen x - i - 1) then _reverse_loop fuel (i + 1) x
      else _reverse_loop fuel (i + 1) (_swap x i (strlen x - i - 1))
    else x

/-- The macro `_reverse(x)`: reverse the C string in `x` in place.  The loop
runs at most `strlen(x) >> 1` rounds, so `strlen x` rounds of fuel are enough. -/
def _reverse (x : Buf) : Buf := _reverse_loop (strlen x) 0 x

/-- The macro `_max(a, b)`, `(a ^ ((a ^ b) & -(a < b)))`: the mask `-(a < b)` is
all ones when `a < b` and zero otherwise. -/
def _max (a b : Nat) : Nat := if a < b then a ^^^ (a ^^^ b) else a ^^^ 0

/-! ## `string_add` -/

/-- The locals of `string_add` that live across loop rounds, with `out`. -/
structure AddState where
  out : Buf
  tmp : Int
  carry : Int

/-- One round of the `for` loop of `string_add` (the loop text is the same in
`fast_fibdrv.c` and `fibdrv.c`).  `(len - i - 1) >> 63` is non-zero exactly when
`len - i - 1` is negative. -/
def string_add_body (a b : Buf) (len_a len_b : Nat) (i : Nat) (s : AddState) : AddState :=
  let tmp : Int :=
    if (len_a : Int) - i - 1 < 0 then 0 else (a.read (len_a - i - 1) : Int) - 48
  let tmp : Int :=
    tmp + (if (len_b : Int) - i - 1 < 0 then 0 else (b.read (len_b - i - 1) : Int) - 48)
  let tmp : Int := if s.carry ≠ 0 then tmp + s.carry else tmp
  if tmp ≥ 10 then
    { out := s.out.write i (toChar (tmp - 10 + 48)), tmp := tmp - 10, carry := 1 }
  else
    { out := s.out.write i (toChar (tmp + 48)), tmp := tmp, carry := 0 }

/-- The function `string_add` of `fast_fibdrv.c`. -/
def string_add (a b out : Buf) : Buf :=
  let len_a := strlen a
  let len_b := strlen b
  let len_max := _max len_a len_b
  let s := forLoop len_max (string_add_body a b len_a len_b) { out := out, tmp := 0, carry := 0 }
  if s.carry ≠ 0 then
    let out := s.out.write len_max (toChar (s.carry + 48))
    let len_max := len_max + 1
    _reverse (out.write len_max 0)
  else
    _reverse (s.out.write len_max 0)

/-! ## `string_sub` (`fast_fibdrv.c`) -/

/-- The locals of `string_sub` that live across loop rounds, with `out`;
`broke` records that the loop was left through `break`. -/
structure SubState where
  out : Buf
  tmp : Int
  borrow : Int
  broke : Bool

/-- One round of the `for` loop of `string_sub`.  `strlen(a) - i - 1` is
unsigned there, and `>> 63` picks its top bit, set exactly when the
subtraction wrapped around, that is when `strlen - i - 1` is negative. -/
def string_sub_body (a b : Buf) (i : Nat) (s : SubState) : SubState :=
  if s.broke then s
  else
    let tmp : Int :=
      if (strlen a : Int) - i - 1 < 0 then 0 else (a.read (strlen a - i - 1) : Int) - 48
    let tmp : Int := if s.borrow < 0 then tmp - 1 else tmp
    let tmp : Int :=
      tmp - (if (strlen b : Int) - i - 1 < 0 then 0 else (b.read (strlen b - i - 1) : Int) - 48)
    let borrow : Int := if tmp < 0 then -1 else 0
    let tmp : Int := if tmp < 0 then tmp + 10 else tmp
    if i + 1 = strlen a ∧ tmp = 0 then
      { out := s.out, tmp := tmp, borrow := borrow, broke := true }
    else
      { out := s.out.write i (toChar (tmp + 48)), tmp := tmp, borrow := borrow, broke := false }

/-- The function `string_sub` of `fast_fibdrv.c`.  (For an empty `a` the C code
writes `out[-1]`; the index is cut off at 0 here.) -/
def string_sub (a b out : Buf) : Buf :=
  let s := forLoop (strlen a) (string_sub_body a b)
    { out := out, tmp := 0, borrow := 0, broke := false }
  if s.tmp ≠ 0 then _reverse (s.out.write (strlen a) 0)
  else _reverse (s.out.write (strlen a - 1) 0)

/-! ## `string_mul` (`fast_fibdrv.c`) -/

/-- The locals of `string_mul` that live across loop rounds, with `out`. -/
structure MulState where
  out : Buf
  tmp : Int
  carry : Int

/-- One round of the inner `for (ia ...)` loop of `string_mul`. -/
def string_mul_inner (a b : Buf) (ib ia : Nat) (s : MulState) : MulState :=
  let tmp : Int := (b.read (strlen b - ib - 1) : Int) - 48
  let tmp : Int := tmp * ((a.read (strlen a - ia - 1) : Int) - 48)
  let tmp : Int := tmp + ((s.out.read (ia + ib) : Int) - 48)
  let tmp : Int := if s.carry ≠ 0 then tmp + s.carry else tmp
  if tmp ≥ 10 then
    { out := s.out.write (ia + ib) (toChar (tmp % 10 + 48)), tmp := tmp % 10, carry := tmp / 10 }
  else
    { out := s.out.write (ia + ib) (toChar (tmp + 48)), tmp := tmp, carry := 0 }

/-- One round of the outer `for (ib ...)` loop of `string_mul`. -/
def string_mul_outer (a b : Buf) (ib : Nat) (s : MulState) : MulState :=
  let s := forLoop (strlen a) (string_mul_inner a b ib) { s with carry := 0 }
  { s with out := s.out.write (ib + strlen a) (toChar (s.carry + 48)) }

/-- The function `string_mul` of `fast_fibdrv.c`.  (`strlen(a) + strlen(b) - 1`
is cut off at 0 for two empty strings.) -/
def string_mul (a b out : Buf) : Buf :=
  let s := forLoop (strlen b) (string_mul_outer a b) { out := out, tmp := 0, carry := 0 }
  let tmp := strlen a + strlen b - 1
  if s.carry ≠ 0 then _reverse (s.out.write (tmp + 1) 0)
  else _reverse (s.out.write tmp 0)

/-! ## The bit stack and `d2b` (`fast_fibdrv.c`) -/

/-- The function `push`: a new node in front of the list `top`.  The linked
list hanging off the global `top` is the list of its `data` fields. -/
def push (data : Nat) (top : List Nat) : List Nat := data :: top

/-- The function `pop`: returns the `data` of the first node and the new `top`.
(On an empty stack the C code dereferences NULL; 0 is returned here.) -/
def pop (top : List Nat) : Nat × List Nat :=
  match top with
  | [] => (0, [])
  | d :: rest => (d, rest)

/-- The function `d2b`, for a non-negative argument: push the low bit, shift,
recurse while something is left. -/
def d2b (a : Nat) (top : List Nat) : List Nat :=
  if _h : a >>> 1 > 0 then d2b (a >>> 1) (push (a &&& 1) top)
  else push (a &&& 1) top
termination_by a
decreasing_by
  simp_wf
  rw [Nat.shiftRight_eq_div_pow] at *
  omega

/-! ## `node_init` and `fib_fast_str` (`fast_fibdrv.c`) -/

/-- The macro `MAX_DATA_SIZE`, the size of every `char` array of `fast_fibdrv.c`. -/
def MAX_DATA_SIZE : Nat := 256

/-- The library function `strncpy(dst, src, n)`: the bytes of `src` up to and
including its NUL, then NUL padding, `n` bytes in all. -/
def strncpy (dst src : Buf) (n : Nat) : Buf :=
  forLoop n (fun i d => d.write i (if i ≤ strlen src then src.read i else 0)) dst

/-- The function `node_init` of `fast_fibdrv.c`; the result is the `data` array
of the node it allocates (its pointer argument is overwritten at once). -/
def node_init (str : Buf) : Buf :=
  let data := memset 48
  let data := strncpy data str (strlen str + 1)
  data.write (strlen str + 1) 0

/-- The variables of `fib_fast_str` inside its `while` loop: the `data` arrays
of `f[0]` and `f[1]`, the arrays `tmp1` and `tmp2`, and the global `top`. -/
structure FastState where
  f0 : Buf
  f1 : Buf
  tmp1 : Buf
  tmp2 : Buf
  top : List Nat

/-- The doubling part of the loop body of `fib_fast_str`, up to and including
`string_add(tmp1, tmp2, f[1]->data)`. -/
def fast_double (s : FastState) : FastState :=
  let tmp1 := memset 0
  let tmp2 := memset 0
  let tmp1 := string_add s.f1 s.f1 tmp1
  let tmp2 := string_sub tmp1 s.f0 tmp2
  let tmp1 := memset 48
  let tmp1 := string_mul s.f0 tmp2 tmp1
  let tmp2 := memset 48
  let tmp2 := string_mul s.f0 s.f0 tmp2
  let f0 := strncpy s.f0 tmp1 (strlen tmp1 + 1)
  let f0 := f0.write (strlen tmp1 + 1) 0
  let tmp1 := memset 48
  let tmp1 := string_mul s.f1 s.f1 tmp1
  let f1 := string_add tmp1 tmp2 s.f1
  { f0 := f0, f1 := f1, tmp1 := tmp1, tmp2 := tmp2, top := s.top }

/-- The body of `if (pop())` in `fib_fast_str`. -/
def fast_advance (s : FastState) : FastState :=
  let tmp1 := string_add s.f0 s.f1 s.tmp1
  let f0 := strncpy s.f0 s.f1 (strlen s.f1 + 1)
  let f0 := f0.write (strlen s.f1 + 1) 0
  let f1 := strncpy s.f1 tmp1 (strlen tmp1 + 1)
  let f1 := f1.write (strlen tmp1 + 1) 0
  { f0 := f0, f1 := f1, tmp1 := tmp1, tmp2 := s.tmp2, top := s.top }

/-- One round of the `while (top)` loop of `fib_fast_str`. -/
def fast_body (s : FastState) : FastState :=
  let s := fast_double s
  let bit := (pop s.top).1
  let s := { s with top := (pop s.top).2 }
  if bit ≠ 0 then fast_advance s else s

/-- The loop `while (top) { ... }` of `fib_fast_str`; every round pops one
node, so `fuel` = the number of nodes on the stack is enough. -/
def fast_loop : Nat → FastState → FastState
  | 0, s => s
  | fuel + 1, s => if s.top ≠ [] then fast_loop fuel (fast_body s) else s

/-- What `fib_fast_str` hands back: the `n` bytes it copies to the user buffer
`out` (the copy succeeding), its return value `n`, and the global `top`. -/
structure FastResult where
  out : List Nat
  ret : Nat
  top : List Nat

/-- The state of `fib_fast_str` at the label `end`.  `tmp1` and `tmp2` are
the contents of the two local arrays on entry, `top` is the global. -/
def fib_fast_end (k : Nat) (tmp1 tmp2 : Buf) (top : List Nat) : FastState :=
  if k = 0 then
    { f0 := node_init (ofStr [48]), f1 := node_init (ofStr [48]),
      tmp1 := tmp1, tmp2 := tmp2, top := top }
  else
    let f0 := node_init (ofStr [49])
    let f1 := node_init (ofStr [49])
    let top := d2b k top
    let top := (pop top).2
    fast_loop top.length { f0 := f0, f1 := f1, tmp1 := tmp1, tmp2 := tmp2, top := top }

/-- The function `fib_fast_str`, for `k ≥ 0`. -/
def fib_fast_str (k : Nat) (tmp1 tmp2 : Buf) (top : List Nat) : FastResult :=
  let s := fib_fast_end k tmp1 tmp2 top
  let n := strlen s.f0
  { out := (List.range n).map s.f0.read, ret := n, top := s.top }

/-! ## `fibdrv.c`: the linear engine -/

namespace Seq

/-- The function `string_add` of `fibdrv.c`: the loop is that of
`fast_fibdrv.c`, the terminating NUL goes to `out[len_max + 1]`. -/
def string_add (a b out : Buf) : Buf :=
  let len_a := strlen a
  let len_b := strlen b
  let len_max := _max len_a len_b
  let s := forLoop len_max (string_add_body a b len_a len_b) { out := out, tmp := 0, carry := 0 }
  if s.carry ≠ 0 then
    let out := s.out.write len_max (toChar (s.carry + 48))
    let len_max := len_max + 1
    _reverse (out.write (len_max + 1) 0)
  else
    _reverse (s.out.write (len_max + 1) 0)

/-- The function `node_init` of `fibdrv.c`.  `fresh` is the content of the
memory `kmalloc` returns, which nothing initialises; the result is the `data`
array of the new node. -/
def node_init (fresh : Buf) (str : Buf) : Buf :=
  let data := strncpy fresh str (strlen str + 1)
  data.write (strlen str + 1) 0

/-- One round of the loop `for (int i = 2; i <= k; i++)` of `fib_seq_str`, the
round number `j` standing for `i = j + 2`.  `f i` is the `data` array of the
node `f[i]`, `heap i` the content of the memory allocated for it. -/
def fib_seq_body (heap : Nat → Buf) (j : Nat) (f : Nat → Buf) : Nat → Buf :=
  let i := j + 2
  let fi := node_init (heap i) (ofStr [48])
  let fi := string_add (f (i - 2)) (f (i - 1)) fi
  fun m => if m = i then fi else f m

/-- The array `f` of `fib_seq_str` when its loop has ended.  Entries that were
never assigned are never read; they show as an empty buffer. -/
def fib_seq_nodes (k : Nat) (heap : Nat → Buf) : Nat → Buf :=
  let f : Nat → Buf := fun m =>
    if m = 0 then node_init (heap 0) (ofStr [48])
    else if m = 1 then node_init (heap 1) (ofStr [49])
    else memset 0
  forLoop (k + 1 - 2) (fib_seq_body heap) f

/-- The function `fib_seq_str`, for `k ≥ 0`: the `n` bytes it copies to the
user buffer (the copy succeeding) and its return value `n`. -/
def fib_seq_str (k : Nat) (heap : Nat → Buf) : List Nat × Nat :=
  let f := fib_seq_nodes k heap
  let n := strlen (f k)
  ((List.range n).map (f k).read, n)

end Seq

/-! ## `fib_device_lseek` (the same text in both files) -/

/-- The macro `MAX_LENGTH`. -/
def MAX_LENGTH : Int := 500

/-- A result of `loff_t` arithmetic, wrapped to 64 bits two's complement. -/
def wrap64 (x : Int) : Int := (x + 2 ^ 63) % 2 ^ 64 - 2 ^ 63

/-- The function `fib_device_lseek`: from `file->f_pos`, `offset` and `orig` to
the new `file->f_pos` and the return value. -/
def fib_device_lseek (f_pos offset orig : Int) : Int × Int :=
  let new_pos : Int := 0
  let new_pos : Int :=
    if orig = 0 then offset
    else if orig = 1 then wrap64 (f_pos + offset)
    else if orig = 2 then wrap64 (MAX_LENGTH - offset)
    else new_pos
  let new_pos : Int := if new_pos > MAX_LENGTH then MAX_LENGTH else new_pos
  let new_pos : Int := if new_pos < 0 then 0 else new_pos
  (new_pos, new_pos)

/-! ## Notions used to state the properties -/

/-- The bytes `f 0 .. f (n-1)` with the first `i` and the last `i` of them
exchanged end for end; bytes from index `n` on are kept. -/
def revPart (f : Nat → Nat) (n i : Nat) (j : Nat) : Nat :=
  if j < i ∨ (n - i ≤ j ∧ j < n) then f (n - 1 - j) else f j

/-- The buffer holds a NUL-terminated string of decimal digit characters. -/
def DigitStr (a : Buf) : Prop :=
  a.read (strlen a) = 0 ∧ ∀ i, i < strlen a → 48 ≤ a.read i ∧ a.read i ≤ 57

/-- Numeric value of a string of digit characters, most significant first
(the empty string reads as 0). -/
def value (s : List Nat) : Nat := s.foldl (fun acc c => 10 * acc + (c - 48)) 0

/-- Value of the digits `d 0 .. d (n-1)`, least significant first. -/
def lev (d : Nat → Nat) : Nat → Nat
  | 0 => 0
  | n + 1 => lev d n + d n * 10 ^ n

/-- Digit `i`, counted from the right, of the string in `a`; 0 beyond its left end. -/
def digitR (a : Buf) (i : Nat) : Nat :=
  if i < strlen a then a.read (strlen a - i - 1) - 48 else 0

/-- Carry into position `i` of the schoolbook sum of the digit sequences. -/
def addCarry (da db : Nat → Nat) : Nat → Nat
  | 0 => 0
  | i + 1 => (da i + db i + addCarry da db i) / 10

/-- Digit at position `i` of the schoolbook sum. -/
def addDigit (da db : Nat → Nat) (i : Nat) : Nat := (da i + db i + addCarry da db i) % 10

/-- Digit at position `j` of the schoolbook sum over `n` positions, the final
carry standing at position `n`. -/
def sumDigit (da db : Nat → Nat) (n j : Nat) : Nat :=
  if j < n then addDigit da db j else addCarry da db n

/-- Number of digits `string_add` emits: one per position, one more for a final carry. -/
def sumLen (a b : Buf) : Nat :=
  max (strlen a) (strlen b) + addCarry (digitR a) (digitR b) (max (strlen a) (strlen b))

/-- Every character of the string is a decimal digit character. -/
def DigitList (s : List Nat) : Prop := ∀ c, c ∈ s → 48 ≤ c ∧ c ≤ 57

/-- The string is a normalized decimal numeral: digits only, not empty, and no
leading zero unless it is the single digit "0". -/
def NormalList (s : List Nat) : Prop :=
  DigitList s ∧ s ≠ [] ∧ (s.head? = some 48 → s = [48])

/-- The buffer holds a normalized decimal numeral. -/
def Numeral (a : Buf) : Prop :=
  DigitStr a ∧ 0 < strlen a ∧ (a.read 0 = 48 → strlen a = 1)

/-- The normalized decimal numeral of a natural number, as character codes. -/
def decimal (n : Nat) : List Nat :=
  if n = 0 then [48] else ((Nat.digits 10 n).map (fun d => d + 48)).reverse

instance (a : Buf) : Decidable (DigitStr a) := by
  unfold DigitStr
  infer_instance

instance (a : Buf) : Decidable (Numeral a) := by
  unfold Numeral
  infer_instance

/-- Borrow into position `i` of the schoolbook difference of the digit sequences. -/
def subBorrow (da db : Nat → Nat) : Nat → Nat
  | 0 => 0
  | i + 1 => if da i < db i + subBorrow da db i then 1 else 0

/-- Digit at position `i` of the schoolbook difference. -/
def subDigit (da db : Nat → Nat) (i : Nat) : Nat :=
  da i + 10 * subBorrow da db (i + 1) - db i - subBorrow da db i

/-- Number of digits `string_sub` emits: one per digit of `a`, less one when
the top digit of the difference is zero. -/
def subLen (a b : Buf) : Nat :=
  if subDigit (digitR a) (digitR b) (strlen a - 1) ≠ 0 then strlen a else strlen a - 1

/-- Digit value of the character at index `j` of a buffer. -/
def bufDigit (x : Buf) (j : Nat) : Nat := x.read j - 48

/-- Every cell of the buffer holds a decimal digit character. -/
def AllDigits (x : Buf) : Prop := ∀ j, 48 ≤ x.read j ∧ x.read j ≤ 57

/-- The number whose binary digits, most significant first, are `bits`,
written behind the binary digits of `n`; a non-zero entry counts as the bit 1,
as in `if (pop())`. -/
def bitsFrom (n : Nat) (bits : List Nat) : Nat :=
  bits.foldl (fun x bit => 2 * x + (if bit ≠ 0 then 1 else 0)) n

/-- The buffer holds the normalized decimal numeral of `n`. -/
def Holds (x : Buf) (n : Nat) : Prop := Numeral x ∧ value (cstr x) = n

/-- The Fibonacci numbers: `F(0) = 0`, `F(1) = 1`, `F(n) = F(n-1) + F(n-2)`. -/
def F : Nat → Nat
  | 0 => 0
  | 1 => 1
  | n + 2 => F (n + 1) + F n

/-- The character codes of a string literal. -/
def chars (s : String) : List Nat := s.toList.map Char.toNat

instance (x : Buf) (n : Nat) : Decidable (Holds x n) := by
  unfold Holds
  infer_instance

/-- The state in which `fib_fast_str(k)` reaches its `while` loop, for `k ≠ 0`:
both nodes hold "1", `d2b(k)` has run and the first bit has been popped. -/
def fast_start (k : Nat) (tmp1 tmp2 : Buf) (top : List Nat) : FastState :=
  { f0 := node_init (ofStr [49]), f1 := node_init (ofStr [49]), tmp1 := tmp1, tmp2 := tmp2,
    top := (pop (d2b k top)).2 }

/-- The number of explicit cells of a buffer.  A write at an index beyond them
extends the cells up to that index, so for a buffer that started out with at
most `n` explicit cells, `size ≤ n` says that no write went to an index `≥ n`.
(A `memset` over the whole array leaves no explicit cell.) -/
def Buf.size (b : Buf) : Nat := b.cells.length

/-- The buffers one round of the `while` loop of `fib_fast_str` writes when
entered in state `s`, in program order: `tmp1 = b + b`, `tmp2 = tmp1 - a`,
`tmp1 = a * tmp2`, `tmp2 = a * a`, the node `f[0]` after the copy,
`tmp1 = b * b`, the node `f[1] = tmp1 + tmp2`, and `tmp1`, `f[0]`, `f[1]` as the
round leaves them (after the `if (pop())` part when that runs). -/
def fast_outputs (s : FastState) : List Buf :=
  [string_add s.f1 s.f1 (memset 0),
   string_sub (string_add s.f1 s.f1 (memset 0)) s.f0 (memset 0),
   string_mul s.f0 (string_sub (string_add s.f1 s.f1 (memset 0)) s.f0 (memset 0)) (memset 48),
   string_mul s.f0 s.f0 (memset 48),
   (fast_double s).f0,
   string_mul s.f1 s.f1 (memset 48),
   (fast_double s).f1,
   (fast_body s).tmp1,
   (fast_body s).f0,
   (fast_body s).f1]

/-! ## Basic facts about buffers -/

theorem read_write (b : Buf) (i v j : Nat) :
    (b.write i v).read j = if j = i then v else b.read j := by
  unfold Buf.write Buf.read
  by_cases hi : i < b.cells.length
  · simp only [hi, if_true]
    by_cases hj : j = i
    · subst hj
      simp [List.getD_eq_getElem?_getD, List.getElem?_set, hi]
    · simp [List.getD_eq_getElem?_getD, List.getElem?_set, hj, Ne.symm hj]
  · simp only [hi, if_false]
    have hi' : b.cells.length ≤ i := Nat.le_of_not_lt hi
    simp only [List.getD_eq_getElem?_getD]
    by_cases hj : j = i
    · subst hj
      simp [List.getElem?_append_right, hi']
    · simp only [hj, if_false]
      by_cases hjl : j < b.cells.length
      · rw [List.append_assoc, List.getElem?_append_left hjl]
      · have hjl' : b.cells.length ≤ j := Nat.le_of_not_lt hjl
        rw [List.getElem?_eq_none (l := b.cells) hjl']
        by_cases hji : j < i
        · rw [List.getElem?_append_left (by simp; omega),
            List.getElem?_append_right hjl']
          simp only [List.getElem?_replicate]
          split <;> rfl
        · rw [List.getElem?_eq_none (by simp; omega)]

theorem read_write_same (b : Buf) (i v : Nat) : (b.write i v).read i = v := by
  simp [read_write]

theorem read_write_ne (b : Buf) (i v j : Nat) (h : j ≠ i) :
    (b.write i v).read j = b.read j := by
  simp [read_write, h]

theorem read_memset (c i : Nat) : (memset c).read i = c := by
  simp [memset, Buf.read]

theorem strlenCells_le (l : List Nat) : strlenCells l ≤ l.length := by
  induction l with
  | nil => simp [strlenCells]
  | cons c cs ih =>
    simp only [strlenCells]
    split
    · simp
    · simp only [List.length_cons]
      omega

/-- The first NUL of a buffer, located through reads. -/
theorem strlen_eq_of_reads (b : Buf) (n : Nat)
    (hnz : ∀ i, i < n → b.read i ≠ 0) (hz : b.read n = 0) : strlen b = n := by
  obtain ⟨cells, fill⟩ := b
  unfold strlen
  simp only
  induction cells generalizing n with
  | nil =>
    simp only [strlenCells]
    by_contra hne
    have h0 : 0 < n := by omega
    have h1 := hnz 0 h0
    simp [Buf.read] at h1 hz
    exact h1 hz
  | cons c cs ih =>
    simp only [strlenCells]
    cases n with
    | zero =>
      simp [Buf.read] at hz
      simp [hz]
    | succ m =>
      have hc : c ≠ 0 := by
        have := hnz 0 (by omega)
        simpa [Buf.read] using this
      simp only [hc, if_false]
      congr 1
      apply ih
      · intro i hi
        have := hnz (i + 1) (by omega)
        simpa [Buf.read] using this
      · simpa [Buf.read] using hz


theorem max_eq (a b : Nat) : _max a b = max a b := by
  unfold _max
  split
  · rw [Nat.xor_cancel_left]; omega
  · rw [Nat.xor_zero]; omega

theorem xor_swap_snd (a b : Nat) : b ^^^ (a ^^^ b) = a := by
  rw [Nat.xor_comm a b, Nat.xor_cancel_left]

theorem xor_swap_fst (a b : Nat) : a ^^^ b ^^^ (b ^^^ (a ^^^ b)) = b := by
  rw [xor_swap_snd]

theorem swap_read (x : Buf) (i j k : Nat) (hij : i ≠ j) :
    (_swap x i j).read k =
      if k = i then x.read j else if k = j then x.read i else x.read k := by
  unfold _swap
  simp only [read_write]
  by_cases hki : k = i
  · subst hki
    simp [hij, Ne.symm hij, xor_swap_fst]
  · by_cases hkj : k = j
    · subst hkj
      simp [hij, Ne.symm hij, hki, xor_swap_snd]
    · simp [hki, hkj]

theorem revPart_final (f : Nat → Nat) (n j : Nat) :
    revPart f n (n / 2) j = if j < n then f (n - 1 - j) else f j := by
  unfold revPart
  by_cases h : j < n
  · simp only [h, if_true, and_true]
    split
    · rfl
    · have : n - 1 - j = j := by omega
      rw [this]
  · simp only [h, if_false, and_false, or_false]
    have : ¬ j < n / 2 := by omega
    simp [this]

theorem reverse_loop_spec (f : Nat → Nat) (n : Nat)
    (hnz : ∀ j, j < n → f j ≠ 0) (hz : f n = 0) :
    ∀ (fuel i : Nat) (x : Buf), (∀ j, x.read j = revPart f n i j) → i ≤ n / 2 →
      n / 2 ≤ i + fuel → ∀ j, (_reverse_loop fuel i x).read j = revPart f n (n / 2) j := by
  intro fuel
  induction fuel with
  | zero =>
    intro i x hx hi hf j
    have : i = n / 2 := by omega
    subst this
    simpa [_reverse_loop] using hx j
  | succ fuel ih =>
    intro i x hx hi hf
    have hlen : strlen x = n := by
      apply strlen_eq_of_reads
      · intro k hk
        rw [hx k]
        unfold revPart
        split
        · exact hnz _ (by omega)
        · exact hnz _ hk
      · rw [hx n]
        unfold revPart
        have : ¬ (n < i ∨ (n - i ≤ n ∧ n < n)) := by omega
        simp only [this, if_false]
        exact hz
    unfold _reverse_loop
    rw [hlen, Nat.shiftRight_eq_div_pow, pow_one]
    by_cases hlt : i < n / 2
    · simp only [hlt, if_true]
      have hA : x.read i = f i := by
        rw [hx i]; unfold revPart
        have : ¬ (i < i ∨ (n - i ≤ i ∧ i < n)) := by omega
        simp only [this, if_false]
      have hB : x.read (n - i - 1) = f (n - i - 1) := by
        rw [hx (n - i - 1)]; unfold revPart
        have : ¬ (n - i - 1 < i ∨ (n - i ≤ n - i - 1 ∧ n - i - 1 < n)) := by omega
        simp only [this, if_false]
      have key : ∀ (y : Buf), (∀ k, y.read k =
          if k = i then f (n - i - 1) else if k = n - i - 1 then f i else x.read k) →
          ∀ j, y.read j = revPart f n (i + 1) j := by
        intro y hy j
        rw [hy j]
        by_cases h1 : j = i
        · subst h1
          unfold revPart
          have : j < j + 1 ∨ (n - (j + 1) ≤ j ∧ j < n) := by omega
          simp only [this, if_true]
          congr 1; omega
        · by_cases h2 : j = n - i - 1
          · subst h2
            unfold revPart
            have : n - i - 1 < i + 1 ∨ (n - (i + 1) ≤ n - i - 1 ∧ n - i - 1 < n) := by omega
            simp only [h1, this, if_true, if_false]
            congr 1; omega
          · simp only [h1, h2, if_false]
            rw [hx j]
            unfold revPart
            have : (j < i ∨ (n - i ≤ j ∧ j < n)) ↔ (j < i + 1 ∨ (n - (i + 1) ≤ j ∧ j < n)) := by
              omega
            simp only [this]
      split
      · rename_i heq
        apply ih (i + 1) x _ (by omega) (by omega)
        apply key
        intro k
        by_cases h1 : k = i
        · subst h1; simp only [if_true]; rw [heq, hB]
        · by_cases h2 : k = n - i - 1
          · subst h2; simp only [h1, if_true, if_false]; rw [← heq, hA]
          · simp only [h1, h2, if_false]
      · apply ih (i + 1) _ _ (by omega) (by omega)
        apply key
        intro k
        rw [swap_read x i (n - i - 1) k (by omega), hA, hB]
    · simp only [hlt, if_false]
      have : i = n / 2 := by omega
      subst this
      exact hx

/-- What `_reverse` leaves in a buffer whose first NUL is at index `n`. -/
theorem reverse_read (x : Buf) (n : Nat)
    (hnz : ∀ j, j < n → x.read j ≠ 0) (hz : x.read n = 0) (j : Nat) :
    (_reverse x).read j = if j < n then x.read (n - 1 - j) else x.read j := by
  unfold _reverse
  rw [reverse_loop_spec x.read n hnz hz (strlen x) 0 x _ (by omega)
    (by rw [strlen_eq_of_reads x n hnz hz]; omega) j, revPart_final]
  intro k
  unfold revPart
  have : ¬ (k < 0 ∨ (n - 0 ≤ k ∧ k < n)) := by omega
  simp only [this, if_false]

/-! ## Digit sequences and values -/

theorem lev_congr (d e : Nat → Nat) (n : Nat) (h : ∀ j, j < n → d j = e j) :
    lev d n = lev e n := by
  induction n with
  | zero => rfl
  | succ n ih =>
    simp only [lev]
    rw [ih (fun j hj => h j (by omega)), h n (by omega)]

theorem lev_lt (d : Nat → Nat) (n : Nat) (h : ∀ j, j < n → d j ≤ 9) : lev d n < 10 ^ n := by
  induction n with
  | zero => simp [lev]
  | succ n ih =>
    simp only [lev]
    have h1 := ih (fun j hj => h j (by omega))
    have h2 := h n (by omega)
    have h3 : d n * 10 ^ n ≤ 9 * 10 ^ n := Nat.mul_le_mul_right _ h2
    rw [pow_succ]
    omega

theorem lev_shift (d : Nat → Nat) (n : Nat) :
    lev d (n + 1) = d 0 + 10 * lev (fun j => d (j + 1)) n := by
  induction n with
  | zero => simp [lev]
  | succ n ih =>
    rw [lev, ih]
    simp only [lev]
    rw [pow_succ]
    ring

theorem lev_zero_ext (d : Nat → Nat) (n m : Nat) (hnm : n ≤ m)
    (h : ∀ j, n ≤ j → d j = 0) : lev d m = lev d n := by
  induction m with
  | zero =>
    have : n = 0 := by omega
    subst this; rfl
  | succ m ih =>
    by_cases hn : n = m + 1
    · subst hn; rfl
    · simp only [lev]
      rw [ih (by omega), h m (by omega)]
      simp

theorem value_append_single (s : List Nat) (c : Nat) :
    value (s ++ [c]) = 10 * value s + (c - 48) := by
  simp [value, List.foldl_append]

theorem value_range_map (g : Nat → Nat) (m : Nat) :
    value ((List.range m).map g) = lev (fun j => g (m - 1 - j) - 48) m := by
  induction m with
  | zero => simp [value, lev]
  | succ m ih =>
    rw [List.range_succ, List.map_append, List.map_singleton, value_append_single, ih,
      lev_shift]
    simp only [Nat.add_sub_cancel, Nat.sub_zero]
    have : lev (fun j => g (m - (j + 1)) - 48) m = lev (fun j => g (m - 1 - j) - 48) m := by
      apply lev_congr
      intro j hj
      have : m - (j + 1) = m - 1 - j := by omega
      simp only [this]
    rw [this]
    omega

theorem cstr_length (a : Buf) : (cstr a).length = strlen a := by
  simp [cstr]

theorem value_cstr (a : Buf) : value (cstr a) = lev (digitR a) (strlen a) := by
  unfold cstr
  rw [value_range_map]
  apply lev_congr
  intro j hj
  simp only [digitR, hj, if_true]
  congr 2
  omega

theorem digitR_le (a : Buf) (ha : DigitStr a) (i : Nat) : digitR a i ≤ 9 := by
  unfold digitR
  split
  · have := ha.2 (strlen a - i - 1) (by omega)
    omega
  · omega

theorem add_arith (da db : Nat → Nat) (n : Nat) :
    lev (addDigit da db) n + addCarry da db n * 10 ^ n = lev da n + lev db n := by
  induction n with
  | zero => simp [lev, addCarry]
  | succ n ih =>
    simp only [lev, addCarry, addDigit]
    have h := Nat.div_add_mod (da n + db n + addCarry da db n) 10
    rw [pow_succ]
    generalize (da n + db n + addCarry da db n) / 10 = q at h ⊢
    generalize (da n + db n + addCarry da db n) % 10 = r at h ⊢
    have e1 : q * (10 ^ n * 10) = (10 * q) * 10 ^ n := by ring
    have e2 : (da n + db n + addCarry da db n) * 10 ^ n
        = da n * 10 ^ n + db n * 10 ^ n + addCarry da db n * 10 ^ n := by ring
    have e3 : (10 * q + r) * 10 ^ n = (10 * q) * 10 ^ n + r * 10 ^ n := by ring
    rw [← h] at e2
    rw [e3] at e2
    rw [e1]
    omega

theorem addCarry_le (da db : Nat → Nat) (ha : ∀ i, da i ≤ 9) (hb : ∀ i, db i ≤ 9) (n : Nat) :
    addCarry da db n ≤ 1 := by
  induction n with
  | zero => simp [addCarry]
  | succ n ih =>
    simp only [addCarry]
    have := ha n
    have := hb n
    omega

/-! ## `string_add` -/

theorem toChar_ofNat (x : Nat) (h : x < 256) : toChar (x : Int) = x := by
  unfold toChar
  omega

theorem digit_term (a : Buf) (ha : DigitStr a) (i : Nat) :
    (if (strlen a : Int) - i - 1 < 0 then (0 : Int) else (a.read (strlen a - i - 1) : Int) - 48)
      = (digitR a i : Int) := by
  unfold digitR
  by_cases h : i < strlen a
  · have h1 : ¬ ((strlen a : Int) - i - 1 < 0) := by omega
    have h2 := ha.2 (strlen a - i - 1) (by omega)
    simp only [h1, h, if_true, if_false]
    omega
  · have h1 : (strlen a : Int) - i - 1 < 0 := by omega
    simp only [h1, h, if_true, if_false]
    rfl

theorem add_body_spec (a b : Buf) (ha : DigitStr a) (hb : DigitStr b) (i : Nat)
    (s : AddState) (c : Nat) (hc : s.carry = c) (hc1 : c ≤ 1) :
    (string_add_body a b (strlen a) (strlen b) i s).carry
        = ((digitR a i + digitR b i + c) / 10 : Nat) ∧
      (string_add_body a b (strlen a) (strlen b) i s).out
        = s.out.write i (48 + (digitR a i + digitR b i + c) % 10) := by
  unfold string_add_body
  rw [digit_term a ha, digit_term b hb, hc]
  have hA := digitR_le a ha i
  have hB := digitR_le b hb i
  generalize digitR a i = A at hA ⊢
  generalize digitR b i = B at hB ⊢
  have htmp : (if (c : Int) ≠ 0 then (A : Int) + B + c else (A : Int) + B) = ((A + B + c : Nat) : Int) := by
    split
    · push_cast; ring
    · rename_i h
      have : c = 0 := by omega
      subst this; push_cast; ring
  simp only [htmp]
  by_cases h10 : ((A + B + c : Nat) : Int) ≥ 10
  · simp only [h10, if_true]
    have e : ((A + B + c : Nat) : Int) - 10 + 48 = ((48 + (A + B + c) % 10 : Nat) : Int) := by omega
    rw [e, toChar_ofNat _ (by omega)]
    refine ⟨?_, rfl⟩
    omega
  · simp only [h10, if_false]
    have e : ((A + B + c : Nat) : Int) + 48 = ((48 + (A + B + c) % 10 : Nat) : Int) := by omega
    rw [e, toChar_ofNat _ (by omega)]
    refine ⟨?_, rfl⟩
    omega

theorem add_loop_spec (a b out : Buf) (ha : DigitStr a) (hb : DigitStr b) (n : Nat) :
    (forLoop n (string_add_body a b (strlen a) (strlen b)) ⟨out, 0, 0⟩).carry
        = (addCarry (digitR a) (digitR b) n : Nat) ∧
      ∀ j, (forLoop n (string_add_body a b (strlen a) (strlen b)) ⟨out, 0, 0⟩).out.read j
        = if j < n then 48 + addDigit (digitR a) (digitR b) j else out.read j := by
  induction n with
  | zero => simp [forLoop, addCarry]
  | succ n ih =>
    simp only [forLoop]
    have hc1 := addCarry_le (digitR a) (digitR b) (digitR_le a ha) (digitR_le b hb) n
    obtain ⟨h1, h2⟩ := add_body_spec a b ha hb n _ _ ih.1 hc1
    refine ⟨by rw [h1]; rfl, ?_⟩
    intro j
    rw [h2, read_write, ih.2 j]
    by_cases hj : j = n
    · subst hj; simp [addDigit]
    · have : (j < n + 1) ↔ (j < n) := by omega
      simp only [hj, if_false, this]

theorem addDigit_le (da db : Nat → Nat) (j : Nat) : addDigit da db j ≤ 9 := by
  unfold addDigit
  omega

/-- The bytes `string_add` leaves in `out`: the digits of the sum, most
significant first, then a NUL. -/
theorem string_add_reads (a b out : Buf) (ha : DigitStr a) (hb : DigitStr b) :
    (∀ j, j < sumLen a b → (string_add a b out).read j
        = 48 + sumDigit (digitR a) (digitR b) (max (strlen a) (strlen b)) (sumLen a b - 1 - j)) ∧
      (string_add a b out).read (sumLen a b) = 0 := by
  unfold string_add sumLen
  simp only [max_eq]
  generalize hn : max (strlen a) (strlen b) = n
  obtain ⟨hc, hr⟩ := add_loop_spec a b out ha hb n
  have hc1 := addCarry_le (digitR a) (digitR b) (digitR_le a ha) (digitR_le b hb) n
  generalize forLoop n (string_add_body a b (strlen a) (strlen b)) ⟨out, 0, 0⟩ = s at hc hr
  by_cases hcz : addCarry (digitR a) (digitR b) n = 0
  · have hs : ¬ (s.carry ≠ 0) := by rw [hc, hcz]; simp
    simp only [hs, if_false, hcz, Nat.add_zero]
    have hnz : ∀ j, j < n → (s.out.write n 0).read j ≠ 0 := by
      intro j hj
      rw [read_write_ne _ _ _ _ (by omega), hr j]
      simp only [hj, if_true]; omega
    have hz : (s.out.write n 0).read n = 0 := read_write_same _ _ _
    constructor
    · intro j hj
      rw [reverse_read _ n hnz hz]
      simp only [hj, if_true]
      rw [read_write_ne _ _ _ _ (by omega), hr]
      have h1 : n - 1 - j < n := by omega
      simp only [h1, if_true, sumDigit]
    · rw [reverse_read _ n hnz hz]
      simp only [lt_irrefl, if_false]
      exact hz
  · have hc' : addCarry (digitR a) (digitR b) n = 1 := by omega
    have hs : s.carry ≠ 0 := by rw [hc, hc']; simp
    simp only [hs, if_true, hc', ne_eq, not_false_eq_true]
    have e49 : toChar (s.carry + 48) = 49 := by
      rw [hc, hc']
      exact toChar_ofNat 49 (by omega)
    rw [e49]
    have hnz : ∀ j, j < n + 1 → (((s.out.write n 49).write (n + 1) 0)).read j ≠ 0 := by
      intro j hj
      rw [read_write_ne _ _ _ _ (by omega), read_write, hr j]
      split
      · omega
      · have : j < n := by omega
        simp only [this, if_true]; omega
    have hz : (((s.out.write n 49).write (n + 1) 0)).read (n + 1) = 0 := read_write_same _ _ _
    constructor
    · intro j hj
      rw [reverse_read _ (n + 1) hnz hz]
      simp only [hj, if_true]
      rw [read_write_ne _ _ _ _ (by omega), read_write, hr]
      unfold sumDigit
      by_cases h0 : j = 0
      · subst h0
        have h1 : n + 1 - 1 - 0 = n := by omega
        simp only [h1, if_true, lt_irrefl, if_false, hc']
      · have h1 : n + 1 - 1 - j ≠ n := by omega
        have h2 : n + 1 - 1 - j < n := by omega
        simp only [h1, h2, if_true, if_false]
    · rw [reverse_read _ (n + 1) hnz hz]
      simp only [lt_irrefl, if_false]
      exact hz

theorem sumDigit_le (a b : Buf) (ha : DigitStr a) (hb : DigitStr b) (n j : Nat) :
    sumDigit (digitR a) (digitR b) n j ≤ 9 := by
  unfold sumDigit
  split
  · exact addDigit_le _ _ _
  · have := addCarry_le (digitR a) (digitR b) (digitR_le a ha) (digitR_le b hb) n
    omega

theorem string_add_strlen (a b out : Buf) (ha : DigitStr a) (hb : DigitStr b) :
    strlen (string_add a b out) = sumLen a b := by
  obtain ⟨h1, h2⟩ := string_add_reads a b out ha hb
  apply strlen_eq_of_reads _ _ _ h2
  intro i hi
  rw [h1 i hi]
  omega

theorem string_add_digitStr (a b out : Buf) (ha : DigitStr a) (hb : DigitStr b) :
    DigitStr (string_add a b out) := by
  obtain ⟨h1, h2⟩ := string_add_reads a b out ha hb
  unfold DigitStr
  rw [string_add_strlen a b out ha hb]
  refine ⟨h2, ?_⟩
  intro i hi
  rw [h1 i hi]
  have := sumDigit_le a b ha hb (max (strlen a) (strlen b)) (sumLen a b - 1 - i)
  omega

theorem lev_digitR_ext (a : Buf) (n : Nat) (h : strlen a ≤ n) :
    lev (digitR a) n = value (cstr a) := by
  rw [value_cstr]
  apply lev_zero_ext _ _ _ h
  intro j hj
  unfold digitR
  have : ¬ j < strlen a := by omega
  simp only [this, if_false]

theorem digitR_eq (a : Buf) (j : Nat) (hj : j < strlen a) :
    digitR a j = a.read (strlen a - j - 1) - 48 := by
  simp only [digitR, hj, if_true]

theorem string_add_value (a b out : Buf) (ha : DigitStr a) (hb : DigitStr b) :
    value (cstr (string_add a b out)) = value (cstr a) + value (cstr b) := by
  obtain ⟨h1, h2⟩ := string_add_reads a b out ha hb
  rw [value_cstr, string_add_strlen a b out ha hb]
  have hc1 := addCarry_le (digitR a) (digitR b) (digitR_le a ha) (digitR_le b hb)
    (max (strlen a) (strlen b))
  have e : lev (digitR (string_add a b out)) (sumLen a b)
      = lev (sumDigit (digitR a) (digitR b) (max (strlen a) (strlen b))) (sumLen a b) := by
    apply lev_congr
    intro j hj
    rw [digitR_eq _ j (by rw [string_add_strlen a b out ha hb]; exact hj),
      string_add_strlen a b out ha hb, h1 _ (by omega)]
    have : sumLen a b - 1 - (sumLen a b - j - 1) = j := by omega
    rw [this]
    omega
  rw [e, ← lev_digitR_ext a (max (strlen a) (strlen b)) (le_max_left _ _),
    ← lev_digitR_ext b (max (strlen a) (strlen b)) (le_max_right _ _), ← add_arith]
  unfold sumLen
  generalize max (strlen a) (strlen b) = n at hc1 ⊢
  have e2 : lev (sumDigit (digitR a) (digitR b) n) n = lev (addDigit (digitR a) (digitR b)) n := by
    apply lev_congr
    intro j hj
    simp only [sumDigit, hj, if_true]
  by_cases hcz : addCarry (digitR a) (digitR b) n = 0
  · rw [hcz]
    simp only [Nat.add_zero, Nat.zero_mul]
    exact e2
  · have hc' : addCarry (digitR a) (digitR b) n = 1 := by omega
    rw [hc']
    simp only [lev, e2]
    simp [sumDigit, hc']

/-! ## Numerals as lists of characters -/

theorem value_foldl (s : List Nat) (acc : Nat) :
    s.foldl (fun acc c => 10 * acc + (c - 48)) acc = acc * 10 ^ s.length + value s := by
  induction s generalizing acc with
  | nil => simp [value]
  | cons c s ih =>
    simp only [List.foldl_cons, List.length_cons, value]
    rw [ih, ih (10 * 0 + (c - 48))]
    rw [pow_succ]
    ring

theorem value_cons (c : Nat) (s : List Nat) :
    value (c :: s) = (c - 48) * 10 ^ s.length + value s := by
  unfold value
  rw [List.foldl_cons, value_foldl]
  simp [value]

theorem value_lt_pow (s : List Nat) (h : DigitList s) : value s < 10 ^ s.length := by
  induction s with
  | nil => simp [value]
  | cons c s ih =>
    rw [value_cons, List.length_cons, pow_succ]
    have h1 := ih (fun d hd => h d (List.mem_cons_of_mem _ hd))
    have h2 := h c (List.mem_cons_self _ _)
    have h3 : (c - 48) * 10 ^ s.length ≤ 9 * 10 ^ s.length :=
      Nat.mul_le_mul_right _ (by omega)
    omega

theorem value_inj_of_length (s t : List Nat) (hs : DigitList s) (ht : DigitList t)
    (hl : s.length = t.length) (hv : value s = value t) : s = t := by
  induction s generalizing t with
  | nil =>
    cases t with
    | nil => rfl
    | cons d t => simp at hl
  | cons c s ih =>
    cases t with
    | nil => simp at hl
    | cons d t =>
      simp only [List.length_cons, Nat.add_right_cancel_iff] at hl
      rw [value_cons, value_cons, hl] at hv
      have hs' : DigitList s := fun e he => hs e (List.mem_cons_of_mem _ he)
      have ht' : DigitList t := fun e he => ht e (List.mem_cons_of_mem _ he)
      have h1 := value_lt_pow s hs'
      have h2 := value_lt_pow t ht'
      rw [hl] at h1
      have hc := hs c (List.mem_cons_self _ _)
      have hd := ht d (List.mem_cons_self _ _)
      have hpos : 0 < 10 ^ t.length := by positivity
      have hcd : c - 48 = d - 48 := by
        by_contra hne
        rcases Nat.lt_or_gt_of_ne hne with hlt | hgt
        · have : (c - 48 + 1) * 10 ^ t.length ≤ (d - 48) * 10 ^ t.length :=
            Nat.mul_le_mul_right _ hlt
          rw [Nat.add_mul] at this
          omega
        · have : (d - 48 + 1) * 10 ^ t.length ≤ (c - 48) * 10 ^ t.length :=
            Nat.mul_le_mul_right _ hgt
          rw [Nat.add_mul] at this
          omega
      rw [hcd] at hv
      have hv' : value s = value t := by omega
      rw [ih t hs' ht' hl hv']
      have : c = d := by omega
      rw [this]

theorem normal_value_ge (s : List Nat) (h : NormalList s) (hl : 2 ≤ s.length) :
    10 ^ (s.length - 1) ≤ value s := by
  cases s with
  | nil => simp at hl
  | cons c s =>
    rw [value_cons]
    simp only [List.length_cons, Nat.add_sub_cancel]
    have hc := h.1 c (List.mem_cons_self _ _)
    have hne : c ≠ 48 := by
      intro hc48
      have := h.2.2 (by simp [hc48])
      rw [this] at hl
      simp at hl
    have : 1 * 10 ^ s.length ≤ (c - 48) * 10 ^ s.length :=
      Nat.mul_le_mul_right _ (by omega)
    omega

theorem normal_length_eq (s t : List Nat) (hs : NormalList s) (ht : NormalList t)
    (hv : value s = value t) : s.length ≤ t.length := by
  by_contra hlt
  have hlt : t.length < s.length := by omega
  have htpos : 0 < t.length := List.length_pos.mpr ht.2.1
  have h1 := normal_value_ge s hs (by omega)
  have h2 := value_lt_pow t ht.1
  have h3 : 10 ^ t.length ≤ 10 ^ (s.length - 1) :=
    Nat.pow_le_pow_right (by omega) (by omega)
  omega

/-- A number has only one normalized decimal numeral. -/
theorem normal_unique (s t : List Nat) (hs : NormalList s) (ht : NormalList t)
    (hv : value s = value t) : s = t :=
  value_inj_of_length s t hs.1 ht.1
    (Nat.le_antisymm (normal_length_eq s t hs ht hv) (normal_length_eq t s ht hs hv.symm)) hv

theorem value_eq_ofDigits (s : List Nat) :
    value s = Nat.ofDigits 10 (s.reverse.map (fun c => c - 48)) := by
  induction s using List.reverseRecOn with
  | nil => simp [value]
  | append_singleton s c ih =>
    rw [value_append_single, ih]
    simp [Nat.ofDigits_cons]
    omega

theorem decimal_value (n : Nat) : value (decimal n) = n := by
  unfold decimal
  split
  · rename_i h; subst h; simp [value]
  · rw [value_eq_ofDigits]
    simp only [List.reverse_reverse, List.map_map]
    have : ((fun c => c - 48) ∘ fun d => d + 48) = (id : Nat → Nat) := by
      funext d; simp
    rw [this, List.map_id, Nat.ofDigits_digits]

theorem decimal_normal (n : Nat) : NormalList (decimal n) := by
  unfold decimal
  split
  · refine ⟨?_, by simp, by simp⟩
    intro c hc
    simp at hc
    omega
  · rename_i hn
    have hne : Nat.digits 10 n ≠ [] := Nat.digits_ne_nil_iff_ne_zero.mpr hn
    refine ⟨?_, ?_, ?_⟩
    · intro c hc
      simp only [List.mem_reverse, List.mem_map] at hc
      obtain ⟨d, hd, rfl⟩ := hc
      have := Nat.digits_lt_base (by omega : 1 < 10) hd
      omega
    · simp [hne]
    · intro hh
      exfalso
      have hlast := Nat.getLast_digit_ne_zero 10 hn
      rw [List.head?_reverse, List.getLast?_map, List.getLast?_eq_getLast _ hne] at hh
      simp at hh
      exact hlast hh

/-- A normalized numeral is the decimal numeral of its value. -/
theorem normal_eq_decimal (s : List Nat) (h : NormalList s) : s = decimal (value s) :=
  normal_unique s _ h (decimal_normal _) (decimal_value _).symm

/-! ## Numerals held in buffers -/

theorem cstr_digitList (a : Buf) (ha : DigitStr a) : DigitList (cstr a) := by
  intro c hc
  simp only [cstr, List.mem_map, List.mem_range] at hc
  obtain ⟨i, hi, rfl⟩ := hc
  exact ha.2 i hi

theorem cstr_head (a : Buf) (h : 0 < strlen a) : (cstr a).head? = some (a.read 0) := by
  unfold cstr
  obtain ⟨n, hn⟩ : ∃ n, strlen a = n + 1 := ⟨strlen a - 1, by omega⟩
  rw [hn, List.range_succ_eq_map]
  simp

theorem numeral_normal (a : Buf) (ha : Numeral a) : NormalList (cstr a) := by
  obtain ⟨hd, hpos, hz⟩ := ha
  refine ⟨cstr_digitList a hd, ?_, ?_⟩
  · intro h
    have := cstr_length a
    rw [h] at this
    simp at this
    omega
  · intro hh
    rw [cstr_head a hpos] at hh
    have h48 : a.read 0 = 48 := by simpa using hh
    have h1 := hz h48
    unfold cstr
    rw [h1]
    simp [List.range_succ, h48]

/-- Two buffers holding normalized numerals of the same value hold the same string. -/
theorem numeral_unique (a b : Buf) (ha : Numeral a) (hb : Numeral b)
    (hv : value (cstr a) = value (cstr b)) : cstr a = cstr b :=
  normal_unique _ _ (numeral_normal a ha) (numeral_normal b hb) hv

theorem digitR_top (a : Buf) (ha : Numeral a) (h2 : 2 ≤ strlen a) :
    1 ≤ digitR a (strlen a - 1) := by
  rw [digitR_eq a _ (by omega)]
  have h0 : strlen a - (strlen a - 1) - 1 = 0 := by omega
  rw [h0]
  have h1 := ha.1.2 0 (by omega)
  have h3 : a.read 0 ≠ 48 := by
    intro h
    have := ha.2.2 h
    omega
  omega

theorem addCarry_iff (a b : Buf) (ha : DigitStr a) (hb : DigitStr b) (n : Nat)
    (hna : strlen a ≤ n) (hnb : strlen b ≤ n) :
    addCarry (digitR a) (digitR b) n = 1 ↔ 10 ^ n ≤ value (cstr a) + value (cstr b) := by
  have h1 := add_arith (digitR a) (digitR b) n
  rw [lev_digitR_ext a n hna, lev_digitR_ext b n hnb] at h1
  have h2 := lev_lt (addDigit (digitR a) (digitR b)) n (fun j _ => addDigit_le _ _ j)
  have h3 := addCarry_le (digitR a) (digitR b) (digitR_le a ha) (digitR_le b hb) n
  constructor
  · intro h
    rw [h] at h1
    omega
  · intro h
    by_contra hne
    have : addCarry (digitR a) (digitR b) n = 0 := by omega
    rw [this] at h1
    omega

theorem string_add_numeral (a b out : Buf) (ha : Numeral a) (hb : Numeral b) :
    Numeral (string_add a b out) := by
  obtain ⟨h1, h2⟩ := string_add_reads a b out ha.1 hb.1
  have hlen := string_add_strlen a b out ha.1 hb.1
  have hpa := ha.2.1
  refine ⟨string_add_digitStr a b out ha.1 hb.1, ?_, ?_⟩
  · rw [hlen]; unfold sumLen
    have := le_max_left (strlen a) (strlen b)
    omega
  · intro h48
    rw [hlen]
    have hpos : 0 < sumLen a b := by
      unfold sumLen
      have := le_max_left (strlen a) (strlen b)
      omega
    rw [h1 0 hpos] at h48
    have hc1 := addCarry_le (digitR a) (digitR b) (digitR_le a ha.1) (digitR_le b hb.1)
      (max (strlen a) (strlen b))
    have hA := le_max_left (strlen a) (strlen b)
    have hB := le_max_right (strlen a) (strlen b)
    have hM : max (strlen a) (strlen b) = strlen a ∨ max (strlen a) (strlen b) = strlen b := by
      rcases le_total (strlen a) (strlen b) with h | h
      · right; exact max_eq_right h
      · left; exact max_eq_left h
    unfold sumLen at h48 ⊢
    generalize hn : max (strlen a) (strlen b) = n at *
    by_cases hcz : addCarry (digitR a) (digitR b) n = 0
    · rw [hcz] at h48 ⊢
      simp only [Nat.add_zero] at h48 ⊢
      by_contra hne
      have hn2 : 2 ≤ n := by omega
      obtain ⟨k, hk⟩ : ∃ k, n = k + 1 := ⟨n - 1, by omega⟩
      subst hk
      have e : k + 1 - 1 - 0 = k := by omega
      rw [e] at h48
      simp only [sumDigit, Nat.lt_succ_self, if_true, addDigit] at h48
      simp only [addCarry] at hcz
      have hdA := digitR_le a ha.1 k
      have hdB := digitR_le b hb.1 k
      rcases hM with h | h
      · have := digitR_top a ha (by omega)
        rw [← h] at this
        simp only [Nat.add_sub_cancel] at this
        omega
      · have := digitR_top b hb (by omega)
        rw [← h] at this
        simp only [Nat.add_sub_cancel] at this
        omega
    · have hc' : addCarry (digitR a) (digitR b) n = 1 := by omega
      rw [hc'] at h48
      have e : n + 1 - 1 - 0 = n := by omega
      rw [e] at h48
      simp only [sumDigit, lt_irrefl, if_false, hc'] at h48
      omega

/-- On normalized numerals `string_add` yields the decimal numeral of the sum. -/
theorem string_add_decimal (a b out : Buf) (ha : Numeral a) (hb : Numeral b) :
    cstr (string_add a b out) = decimal (value (cstr a) + value (cstr b)) := by
  rw [← string_add_value a b out ha.1 hb.1]
  exact normal_eq_decimal _ (numeral_normal _ (string_add_numeral a b out ha hb))

/-! ## `string_sub` -/

theorem subBorrow_le (da db : Nat → Nat) (n : Nat) : subBorrow da db n ≤ 1 := by
  cases n with
  | zero => simp [subBorrow]
  | succ n =>
    simp only [subBorrow]
    split <;> omega

theorem subDigit_le (da db : Nat → Nat) (hda : ∀ i, da i ≤ 9) (i : Nat) :
    subDigit da db i ≤ 9 := by
  unfold subDigit
  simp only [subBorrow]
  have := hda i
  split <;> omega

theorem sub_arith (da db : Nat → Nat) (hda : ∀ i, da i ≤ 9) (hdb : ∀ i, db i ≤ 9) (n : Nat) :
    lev (subDigit da db) n + lev db n = lev da n + subBorrow da db n * 10 ^ n := by
  induction n with
  | zero => simp [lev, subBorrow]
  | succ n ih =>
    simp only [lev]
    have hc := subBorrow_le da db n
    have h1 := hda n
    have h2 := hdb n
    have key : subDigit da db n + db n + subBorrow da db n
        = da n + 10 * subBorrow da db (n + 1) := by
      unfold subDigit
      simp only [subBorrow]
      split <;> omega
    have key2 : (subDigit da db n + db n + subBorrow da db n) * 10 ^ n
        = (da n + 10 * subBorrow da db (n + 1)) * 10 ^ n := by rw [key]
    rw [pow_succ]
    have e1 : (subDigit da db n + db n + subBorrow da db n) * 10 ^ n
        = subDigit da db n * 10 ^ n + db n * 10 ^ n + subBorrow da db n * 10 ^ n := by ring
    have e2 : (da n + 10 * subBorrow da db (n + 1)) * 10 ^ n
        = da n * 10 ^ n + subBorrow da db (n + 1) * (10 ^ n * 10) := by ring
    rw [e1, e2] at key2
    omega

theorem sub_body_spec (a b : Buf) (ha : DigitStr a) (hb : DigitStr b) (i : Nat)
    (s : SubState) (hbr : s.broke = false) (hc : s.borrow = -(subBorrow (digitR a) (digitR b) i : Int)) :
    (string_sub_body a b i s).borrow = -(subBorrow (digitR a) (digitR b) (i + 1) : Int) ∧
    (string_sub_body a b i s).tmp = (subDigit (digitR a) (digitR b) i : Int) ∧
    (string_sub_body a b i s).broke
      = decide (i + 1 = strlen a ∧ subDigit (digitR a) (digitR b) i = 0) ∧
    (string_sub_body a b i s).out
      = if i + 1 = strlen a ∧ subDigit (digitR a) (digitR b) i = 0 then s.out
        else s.out.write i (48 + subDigit (digitR a) (digitR b) i) := by
  unfold string_sub_body
  rw [digit_term a ha, digit_term b hb, hc]
  simp only [hbr, Bool.false_eq_true, if_false]
  have hA := digitR_le a ha i
  have hB := digitR_le b hb i
  have hC := subBorrow_le (digitR a) (digitR b) i
  have hD : subDigit (digitR a) (digitR b) i
      = digitR a i + 10 * subBorrow (digitR a) (digitR b) (i + 1) - digitR b i
        - subBorrow (digitR a) (digitR b) i := rfl
  have hE : subBorrow (digitR a) (digitR b) (i + 1)
      = if digitR a i < digitR b i + subBorrow (digitR a) (digitR b) i then 1 else 0 := rfl
  generalize subDigit (digitR a) (digitR b) i = D at hD ⊢
  generalize subBorrow (digitR a) (digitR b) (i + 1) = C' at hD hE ⊢
  generalize subBorrow (digitR a) (digitR b) i = C at hC hD hE ⊢
  generalize digitR a i = A at hA hD hE ⊢
  generalize digitR b i = B at hB hD hE ⊢
  have h1 : (if -(C : Int) < 0 then (A : Int) - 1 else (A : Int)) - (B : Int)
      = (A : Int) - C - B := by
    split <;> omega
  simp only [h1]
  have hD9 : D ≤ 9 := by split at hE <;> omega
  have h2 : (if (A : Int) - C - B < 0 then (A : Int) - C - B + 10 else (A : Int) - C - B)
      = (D : Int) := by
    split at hE <;> split <;> omega
  have h3 : (if (A : Int) - C - B < 0 then (-1 : Int) else 0) = -(C' : Int) := by
    split at hE <;> split <;> omega
  simp only [h2, h3]
  have h4 : ((D : Int) = 0) ↔ (D = 0) := by omega
  have h5 : toChar ((D : Int) + 48) = 48 + D := by
    have : (D : Int) + 48 = ((48 + D : Nat) : Int) := by push_cast; ring
    rw [this, toChar_ofNat _ (by omega)]
  simp only [h4, h5]
  by_cases hcond : i + 1 = strlen a ∧ D = 0
  · simp only [hcond, and_self, if_true, decide_True, and_true]
  · simp only [hcond, if_false, decide_False, and_true]

theorem sub_loop_spec (a b out : Buf) (ha : DigitStr a) (hb : DigitStr b) (n : Nat)
    (hn : n ≤ strlen a) :
    (forLoop n (string_sub_body a b) ⟨out, 0, 0, false⟩).borrow
        = -(subBorrow (digitR a) (digitR b) n : Int) ∧
      (n < strlen a → (forLoop n (string_sub_body a b) ⟨out, 0, 0, false⟩).broke = false) ∧
      (∀ k, n = k + 1 → (forLoop n (string_sub_body a b) ⟨out, 0, 0, false⟩).tmp
        = (subDigit (digitR a) (digitR b) k : Int)) ∧
      ∀ j, (forLoop n (string_sub_body a b) ⟨out, 0, 0, false⟩).out.read j
        = if j < n ∧ ¬ (j + 1 = strlen a ∧ subDigit (digitR a) (digitR b) j = 0)
          then 48 + subDigit (digitR a) (digitR b) j else out.read j := by
  induction n with
  | zero =>
    refine ⟨by simp [forLoop, subBorrow], by simp [forLoop], by intro k hk; omega, ?_⟩
    intro j
    simp [forLoop]
  | succ n ih =>
    obtain ⟨i1, i2, _, i4⟩ := ih (by omega)
    simp only [forLoop]
    obtain ⟨h1, h2, h3, h4⟩ := sub_body_spec a b ha hb n _ (i2 (by omega)) i1
    refine ⟨h1, ?_, ?_, ?_⟩
    · intro hlt
      rw [h3]
      have : ¬ (n + 1 = strlen a ∧ subDigit (digitR a) (digitR b) n = 0) := by omega
      simp [this]
    · intro k hk
      have : k = n := by omega
      subst this
      exact h2
    · intro j
      rw [h4]
      by_cases hcond : n + 1 = strlen a ∧ subDigit (digitR a) (digitR b) n = 0
      · rw [if_pos hcond, i4 j]
        by_cases hj : j = n
        · subst hj
          have hc1 : ¬ (j < j ∧ ¬ (j + 1 = strlen a ∧ subDigit (digitR a) (digitR b) j = 0)) := by
            omega
          have hc2 : ¬ (j < j + 1 ∧ ¬ (j + 1 = strlen a ∧ subDigit (digitR a) (digitR b) j = 0)) := by
            intro h; exact h.2 hcond
          rw [if_neg hc1, if_neg hc2]
        · have : (j < n + 1) ↔ (j < n) := by omega
          simp only [this]
      · rw [if_neg hcond, read_write, i4 j]
        by_cases hj : j = n
        · subst hj
          have hc2 : (j < j + 1 ∧ ¬ (j + 1 = strlen a ∧ subDigit (digitR a) (digitR b) j = 0)) :=
            ⟨by omega, hcond⟩
          rw [if_pos rfl, if_pos hc2]
        · have : (j < n + 1) ↔ (j < n) := by omega
          simp only [hj, if_false, this]

/-- The bytes `string_sub` leaves in `out`: the digits of the schoolbook
difference, without the top one when that is zero, then a NUL. -/
theorem string_sub_reads (a b out : Buf) (ha : DigitStr a) (hb : DigitStr b)
    (hpos : 0 < strlen a) :
    (∀ j, j < subLen a b → (string_sub a b out).read j
        = 48 + subDigit (digitR a) (digitR b) (subLen a b - 1 - j)) ∧
      (string_sub a b out).read (subLen a b) = 0 := by
  unfold string_sub subLen
  obtain ⟨k, hk⟩ : ∃ k, strlen a = k + 1 := ⟨strlen a - 1, by omega⟩
  obtain ⟨_, _, h3, h4⟩ := sub_loop_spec a b out ha hb (strlen a) (le_refl _)
  have h3' := h3 k hk
  generalize forLoop (strlen a) (string_sub_body a b) ⟨out, 0, 0, false⟩ = s at h3' h4
  rw [hk] at h4 ⊢
  simp only [Nat.add_sub_cancel]
  by_cases hD : subDigit (digitR a) (digitR b) k = 0
  · have hs : ¬ (s.tmp ≠ 0) := by rw [h3', hD]; simp
    simp only [hs, if_false, hD, ne_eq, not_true_eq_false]
    have hnz : ∀ j, j < k → (s.out.write k 0).read j ≠ 0 := by
      intro j hj
      rw [read_write_ne _ _ _ _ (by omega), h4 j]
      have : j < k + 1 ∧ ¬ (j + 1 = k + 1 ∧ subDigit (digitR a) (digitR b) j = 0) := by omega
      simp only [this, if_true, and_self, not_false_eq_true]
      omega
    have hz : (s.out.write k 0).read k = 0 := read_write_same _ _ _
    constructor
    · intro j hj
      rw [reverse_read _ k hnz hz]
      simp only [hj, if_true]
      rw [read_write_ne _ _ _ _ (by omega), h4]
      have : k - 1 - j < k + 1 ∧
          ¬ (k - 1 - j + 1 = k + 1 ∧ subDigit (digitR a) (digitR b) (k - 1 - j) = 0) := by omega
      simp only [this, if_true, and_self, not_false_eq_true]
    · rw [reverse_read _ k hnz hz]
      simp only [lt_irrefl, if_false]
      exact hz
  · have hs : s.tmp ≠ 0 := by rw [h3']; exact_mod_cast hD
    simp only [hs, if_true, hD, ne_eq, not_false_eq_true]
    have hrd : ∀ j, j < k + 1 → s.out.read j = 48 + subDigit (digitR a) (digitR b) j := by
      intro j hj
      rw [h4 j]
      have : j < k + 1 ∧ ¬ (j + 1 = k + 1 ∧ subDigit (digitR a) (digitR b) j = 0) := by
        refine ⟨hj, ?_⟩
        intro h
        have : j = k := by omega
        subst this
        exact hD h.2
      simp only [this, if_true, and_self, not_false_eq_true]
    have hnz : ∀ j, j < k + 1 → (s.out.write (k + 1) 0).read j ≠ 0 := by
      intro j hj
      rw [read_write_ne _ _ _ _ (by omega), hrd j hj]
      omega
    have hz : (s.out.write (k + 1) 0).read (k + 1) = 0 := read_write_same _ _ _
    constructor
    · intro j hj
      rw [reverse_read _ (k + 1) hnz hz]
      simp only [hj, if_true]
      rw [read_write_ne _ _ _ _ (by omega), hrd _ (by omega)]
    · rw [reverse_read _ (k + 1) hnz hz]
      simp only [lt_irrefl, if_false]
      exact hz

theorem string_sub_strlen (a b out : Buf) (ha : DigitStr a) (hb : DigitStr b)
    (hpos : 0 < strlen a) : strlen (string_sub a b out) = subLen a b := by
  obtain ⟨h1, h2⟩ := string_sub_reads a b out ha hb hpos
  apply strlen_eq_of_reads _ _ _ h2
  intro i hi
  rw [h1 i hi]
  omega

theorem string_sub_digitStr (a b out : Buf) (ha : DigitStr a) (hb : DigitStr b)
    (hpos : 0 < strlen a) : DigitStr (string_sub a b out) := by
  obtain ⟨h1, h2⟩ := string_sub_reads a b out ha hb hpos
  unfold DigitStr
  rw [string_sub_strlen a b out ha hb hpos]
  refine ⟨h2, ?_⟩
  intro i hi
  rw [h1 i hi]
  have := subDigit_le (digitR a) (digitR b) (digitR_le a ha) (subLen a b - 1 - i)
  omega

theorem numeral_length_le (a b : Buf) (ha : Numeral a) (hb : Numeral b)
    (hv : value (cstr b) ≤ value (cstr a)) : strlen b ≤ strlen a := by
  by_contra hlt
  have h1 := normal_value_ge _ (numeral_normal b hb) (by rw [cstr_length]; have := ha.2.1; omega)
  have h2 := value_lt_pow _ (cstr_digitList a ha.1)
  rw [cstr_length] at h1 h2
  have h3 : 10 ^ strlen a ≤ 10 ^ (strlen b - 1) :=
    Nat.pow_le_pow_right (by omega) (by omega)
  omega

/-- The digits `string_sub` emits carry the value of the difference, given
that `b` is no longer than `a` and no larger in value. -/
theorem string_sub_value_of_le (a b out : Buf) (ha : DigitStr a) (hb : DigitStr b)
    (hpos : 0 < strlen a) (hl : strlen b ≤ strlen a)
    (hv : value (cstr b) ≤ value (cstr a)) :
    value (cstr (string_sub a b out)) = value (cstr a) - value (cstr b) := by
  obtain ⟨h1, h2⟩ := string_sub_reads a b out ha hb hpos
  have hlen := string_sub_strlen a b out ha hb hpos
  rw [value_cstr, hlen]
  have e : lev (digitR (string_sub a b out)) (subLen a b)
      = lev (subDigit (digitR a) (digitR b)) (subLen a b) := by
    apply lev_congr
    intro j hj
    rw [digitR_eq _ j (by rw [hlen]; exact hj), hlen, h1 _ (by omega)]
    have : subLen a b - 1 - (subLen a b - j - 1) = j := by omega
    rw [this]
    omega
  rw [e]
  have e2 : lev (subDigit (digitR a) (digitR b)) (subLen a b)
      = lev (subDigit (digitR a) (digitR b)) (strlen a) := by
    unfold subLen
    split
    · rfl
    · rename_i hD
      have hD0 : subDigit (digitR a) (digitR b) (strlen a - 1) = 0 := by
        by_contra h; exact hD h
      obtain ⟨k, hk⟩ : ∃ k, strlen a = k + 1 := ⟨strlen a - 1, by omega⟩
      rw [hk] at hD0 ⊢
      simp only [Nat.add_sub_cancel] at hD0 ⊢
      simp only [lev, hD0, Nat.zero_mul, Nat.add_zero]
  rw [e2]
  have h3 := sub_arith (digitR a) (digitR b) (digitR_le a ha) (digitR_le b hb) (strlen a)
  rw [lev_digitR_ext b (strlen a) hl, ← value_cstr] at h3
  have h4 := lev_lt (subDigit (digitR a) (digitR b)) (strlen a)
    (fun j _ => subDigit_le _ _ (digitR_le a ha) j)
  have h5 := subBorrow_le (digitR a) (digitR b) (strlen a)
  by_cases hb0 : subBorrow (digitR a) (digitR b) (strlen a) = 0
  · rw [hb0] at h3
    omega
  · have : subBorrow (digitR a) (digitR b) (strlen a) = 1 := by omega
    rw [this] at h3
    omega

theorem string_sub_value (a b out : Buf) (ha : Numeral a) (hb : Numeral b)
    (hv : value (cstr b) ≤ value (cstr a)) :
    value (cstr (string_sub a b out)) = value (cstr a) - value (cstr b) :=
  string_sub_value_of_le a b out ha.1 hb.1 ha.2.1 (numeral_length_le a b ha hb hv) hv

/-! ## `string_mul` -/

theorem digit_read (a : Buf) (ha : DigitStr a) (i : Nat) (hi : i < strlen a) :
    (a.read (strlen a - i - 1) : Int) - 48 = (digitR a i : Int) := by
  rw [digitR_eq a i hi]
  have := ha.2 (strlen a - i - 1) (by omega)
  omega

theorem mul_inner_spec (a b : Buf) (ha : DigitStr a) (hb : DigitStr b) (ib ia : Nat)
    (hib : ib < strlen b) (hia : ia < strlen a) (s : MulState) (c x : Nat)
    (hc : s.carry = c) (hc9 : c ≤ 9) (hx : s.out.read (ia + ib) = 48 + x) (hx9 : x ≤ 9) :
    (string_mul_inner a b ib ia s).carry
        = ((digitR b ib * digitR a ia + x + c) / 10 : Nat) ∧
      (string_mul_inner a b ib ia s).out
        = s.out.write (ia + ib) (48 + (digitR b ib * digitR a ia + x + c) % 10) := by
  unfold string_mul_inner
  rw [digit_read a ha ia hia, digit_read b hb ib hib, hc, hx]
  have hA := digitR_le a ha ia
  have hB := digitR_le b hb ib
  have hP : digitR b ib * digitR a ia ≤ 81 := Nat.mul_le_mul hB hA
  have hPc : (digitR b ib : Int) * (digitR a ia : Int) = ((digitR b ib * digitR a ia : Nat) : Int) := by
    push_cast; rfl
  simp only [hPc]
  generalize digitR b ib * digitR a ia = P at hP ⊢
  have htmp : (if (c : Int) ≠ 0 then (P : Int) + (((48 + x : Nat) : Int) - 48) + c
      else (P : Int) + (((48 + x : Nat) : Int) - 48)) = ((P + x + c : Nat) : Int) := by
    split
    · push_cast; ring
    · rename_i h
      have : c = 0 := by omega
      subst this; push_cast; ring
  simp only [htmp]
  by_cases h10 : ((P + x + c : Nat) : Int) ≥ 10
  · simp only [h10, if_true]
    have e : ((P + x + c : Nat) : Int) % 10 + 48 = ((48 + (P + x + c) % 10 : Nat) : Int) := by
      omega
    rw [e, toChar_ofNat _ (by omega)]
    refine ⟨?_, rfl⟩
    omega
  · simp only [h10, if_false]
    have e : ((P + x + c : Nat) : Int) + 48 = ((48 + (P + x + c) % 10 : Nat) : Int) := by omega
    rw [e, toChar_ofNat _ (by omega)]
    refine ⟨?_, rfl⟩
    omega

theorem bufDigit_le (x : Buf) (hx : AllDigits x) (j : Nat) : bufDigit x j ≤ 9 := by
  unfold bufDigit
  have := hx j
  omega

theorem read_eq_bufDigit (x : Buf) (hx : AllDigits x) (j : Nat) :
    x.read j = 48 + bufDigit x j := by
  unfold bufDigit
  have := hx j
  omega

theorem mul_inner_loop_spec (a b : Buf) (ha : DigitStr a) (hb : DigitStr b) (ib : Nat)
    (hib : ib < strlen b) (X : Buf) (hX : AllDigits X) (t : Int) (n : Nat)
    (hn : n ≤ strlen a) :
    ∃ c : Nat, c ≤ 9 ∧
      (forLoop n (string_mul_inner a b ib) ⟨X, t, 0⟩).carry = c ∧
      AllDigits (forLoop n (string_mul_inner a b ib) ⟨X, t, 0⟩).out ∧
      (∀ j, (j < ib ∨ ib + n ≤ j) →
        (forLoop n (string_mul_inner a b ib) ⟨X, t, 0⟩).out.read j = X.read j) ∧
      lev (bufDigit (forLoop n (string_mul_inner a b ib) ⟨X, t, 0⟩).out) (ib + n)
          + c * 10 ^ (ib + n)
        = lev (bufDigit X) (ib + n) + lev (digitR a) n * digitR b ib * 10 ^ ib := by
  induction n with
  | zero =>
    exact ⟨0, by omega, by simp [forLoop], by simpa [forLoop] using hX,
      by intro j _; simp [forLoop], by simp [forLoop, lev]⟩
  | succ n ih =>
    obtain ⟨c, hc9, hc, hD, hU, hV⟩ := ih (by omega)
    simp only [forLoop]
    generalize forLoop n (string_mul_inner a b ib) ⟨X, t, 0⟩ = s at hc hD hU hV
    have hx : s.out.read (n + ib) = 48 + bufDigit X (n + ib) := by
      rw [hU (n + ib) (by omega)]
      exact read_eq_bufDigit X hX _
    have hx9 := bufDigit_le X hX (n + ib)
    obtain ⟨h1, h2⟩ := mul_inner_spec a b ha hb ib n hib (by omega) s c _ hc hc9 hx hx9
    have hA := digitR_le a ha n
    have hB := digitR_le b hb ib
    have hP : digitR b ib * digitR a n ≤ 81 := Nat.mul_le_mul hB hA
    generalize hT : digitR b ib * digitR a n + bufDigit X (n + ib) + c = T at h1 h2
    have hT99 : T ≤ 99 := by omega
    refine ⟨T / 10, by omega, h1, ?_, ?_, ?_⟩
    · intro j
      rw [h2, read_write]
      split
      · omega
      · exact hD j
    · intro j hj
      rw [h2, read_write_ne _ _ _ _ (by omega)]
      exact hU j (by omega)
    · have e1 : ib + (n + 1) = (ib + n) + 1 := by omega
      rw [e1]
      simp only [lev]
      have e2 : lev (bufDigit (string_mul_inner a b ib n s).out) (ib + n)
          = lev (bufDigit s.out) (ib + n) := by
        apply lev_congr
        intro j hj
        unfold bufDigit
        rw [h2, read_write_ne _ _ _ _ (by omega)]
      have e3 : bufDigit (string_mul_inner a b ib n s).out (ib + n) = T % 10 := by
        unfold bufDigit
        rw [h2, Nat.add_comm ib n, read_write_same]
        omega
      rw [e2, e3]
      have hdm : T % 10 + 10 * (T / 10) = T := Nat.mod_add_div T 10
      generalize T % 10 = r at hdm ⊢
      generalize T / 10 = q at hdm ⊢
      rw [← hT] at hdm
      have e4 : bufDigit X (ib + n) = bufDigit X (n + ib) := by rw [Nat.add_comm]
      rw [e4]
      generalize lev (bufDigit s.out) (ib + n) = L at hV ⊢
      generalize lev (bufDigit X) (ib + n) = LX at hV ⊢
      generalize lev (digitR a) n = LA at hV ⊢
      generalize bufDigit X (n + ib) = x at hdm ⊢
      generalize digitR b ib = B at hdm hV ⊢
      generalize digitR a n = A at hdm ⊢
      zify at hV hdm ⊢
      linear_combination hV + (10 : Int) ^ (ib + n) * hdm

theorem lev_zero_fun (d : Nat → Nat) (n : Nat) (h : ∀ j, j < n → d j = 0) : lev d n = 0 := by
  induction n with
  | zero => rfl
  | succ n ih =>
    simp only [lev]
    rw [ih (fun j hj => h j (by omega)), h n (by omega)]
    simp

theorem mul_outer_loop_spec (a b out : Buf) (ha : DigitStr a) (hb : DigitStr b)
    (hout : ∀ j, out.read j = 48) (n : Nat) (hn : n ≤ strlen b) :
    AllDigits (forLoop n (string_mul_outer a b) ⟨out, 0, 0⟩).out ∧
      (∀ j, strlen a + n ≤ j → (forLoop n (string_mul_outer a b) ⟨out, 0, 0⟩).out.read j = 48) ∧
      lev (bufDigit (forLoop n (string_mul_outer a b) ⟨out, 0, 0⟩).out) (strlen a + n)
        = lev (digitR a) (strlen a) * lev (digitR b) n ∧
      (∀ k, n = k + 1 → (forLoop n (string_mul_outer a b) ⟨out, 0, 0⟩).carry
        = (bufDigit (forLoop n (string_mul_outer a b) ⟨out, 0, 0⟩).out (strlen a + k) : Nat)) := by
  induction n with
  | zero =>
    refine ⟨?_, ?_, ?_, by intro k hk; omega⟩
    · intro j
      simp only [forLoop]
      rw [hout j]
      omega
    · intro j _
      simp only [forLoop]
      exact hout j
    · simp only [forLoop, lev, Nat.mul_zero]
      apply lev_zero_fun
      intro j _
      unfold bufDigit
      rw [hout j]
  | succ n ih =>
    obtain ⟨hD, hZ, hV, _⟩ := ih (by omega)
    simp only [forLoop]
    generalize forLoop n (string_mul_outer a b) ⟨out, 0, 0⟩ = s at hD hZ hV
    unfold string_mul_outer
    simp only
    obtain ⟨c, hc9, hc, hD1, hU1, hV1⟩ :=
      mul_inner_loop_spec a b ha hb n (by omega) s.out hD s.tmp (strlen a) (le_refl _)
    generalize forLoop (strlen a) (string_mul_inner a b n) ⟨s.out, s.tmp, 0⟩ = s1
      at hc hD1 hU1 hV1
    have e48 : toChar (s1.carry + 48) = 48 + c := by
      rw [hc]
      have : (c : Int) + 48 = ((48 + c : Nat) : Int) := by push_cast; ring
      rw [this, toChar_ofNat _ (by omega)]
    rw [e48]
    refine ⟨?_, ?_, ?_, ?_⟩
    · intro j
      rw [read_write]
      split
      · omega
      · exact hD1 j
    · intro j hj
      rw [read_write_ne _ _ _ _ (by omega), hU1 j (by omega)]
      exact hZ j (by omega)
    · have e1 : strlen a + (n + 1) = (strlen a + n) + 1 := by omega
      rw [e1]
      simp only [lev]
      have e2 : lev (bufDigit (s1.out.write (n + strlen a) (48 + c))) (strlen a + n)
          = lev (bufDigit s1.out) (n + strlen a) := by
        rw [Nat.add_comm (strlen a) n]
        apply lev_congr
        intro j hj
        unfold bufDigit
        rw [read_write_ne _ _ _ _ (by omega)]
      have e3 : bufDigit (s1.out.write (n + strlen a) (48 + c)) (strlen a + n) = c := by
        unfold bufDigit
        rw [Nat.add_comm (strlen a) n, read_write_same]
        omega
      rw [e2, e3]
      have e4 : lev (bufDigit s.out) (n + strlen a)
          = lev (digitR a) (strlen a) * lev (digitR b) n := by
        rw [Nat.add_comm n (strlen a)]; exact hV
      rw [e4] at hV1
      rw [Nat.add_comm (strlen a) n]
      generalize lev (bufDigit s1.out) (n + strlen a) = L at hV1 ⊢
      generalize lev (digitR a) (strlen a) = A at hV1 ⊢
      generalize lev (digitR b) n = LB at hV1 ⊢
      generalize digitR b n = B at hV1 ⊢
      zify at hV1 ⊢
      linear_combination hV1
    · intro k hk
      have hkn : k = n := by omega
      subst hkn
      show s1.carry = _
      rw [hc]
      unfold bufDigit
      rw [Nat.add_comm (strlen a) k, read_write_same]
      congr 1
      omega

/-- What `string_mul` leaves in an `out` buffer that was filled with '0':
a digit string of the stated length that carries the product. -/
theorem string_mul_spec (a b out : Buf) (ha : DigitStr a) (hb : DigitStr b)
    (hout : ∀ j, out.read j = 48) (hla : 0 < strlen a) (hlb : 0 < strlen b) :
    DigitStr (string_mul a b out) ∧
      value (cstr (string_mul a b out)) = value (cstr a) * value (cstr b) ∧
      strlen (string_mul a b out)
        = (if 10 ^ (strlen a + strlen b - 1) ≤ value (cstr a) * value (cstr b)
          then strlen a + strlen b else strlen a + strlen b - 1) ∧
      ((forLoop (strlen b) (string_mul_outer a b) ⟨out, 0, 0⟩).carry ≠ 0 ↔
        10 ^ (strlen a + strlen b - 1) ≤ value (cstr a) * value (cstr b)) := by
  obtain ⟨k, hk⟩ : ∃ k, strlen b = k + 1 := ⟨strlen b - 1, by omega⟩
  obtain ⟨hD, _, hV, hC⟩ := mul_outer_loop_spec a b out ha hb hout (strlen b) (le_refl _)
  have hC' := hC k hk
  rw [← value_cstr, ← value_cstr] at hV
  unfold string_mul
  generalize forLoop (strlen b) (string_mul_outer a b) ⟨out, 0, 0⟩ = s at hD hV hC'
  rw [hk] at hV ⊢
  have e0 : strlen a + (k + 1) - 1 = strlen a + k := by omega
  have e1 : strlen a + (k + 1) = (strlen a + k) + 1 := by omega
  rw [e0]
  rw [e1] at hV
  simp only [lev] at hV
  have hlt := lev_lt (bufDigit s.out) (strlen a + k) (fun j _ => bufDigit_le s.out hD j)
  have htop := bufDigit_le s.out hD (strlen a + k)
  generalize hm : strlen a + k = m at *
  -- the string before the reversal, for either position of the NUL
  have main : ∀ (n : Nat), n ≤ m + 1 → lev (bufDigit s.out) n = value (cstr a) * value (cstr b) →
      DigitStr (_reverse (s.out.write n 0)) ∧
      value (cstr (_reverse (s.out.write n 0))) = value (cstr a) * value (cstr b) ∧
      strlen (_reverse (s.out.write n 0)) = n := by
    intro n _ hval
    have hnz : ∀ j, j < n → (s.out.write n 0).read j ≠ 0 := by
      intro j hj
      rw [read_write_ne _ _ _ _ (by omega)]
      have := hD j
      omega
    have hz : (s.out.write n 0).read n = 0 := read_write_same _ _ _
    have hrd : ∀ j, j < n → (_reverse (s.out.write n 0)).read j = s.out.read (n - 1 - j) := by
      intro j hj
      rw [reverse_read _ n hnz hz]
      simp only [hj, if_true]
      rw [read_write_ne _ _ _ _ (by omega)]
    have hrz : (_reverse (s.out.write n 0)).read n = 0 := by
      rw [reverse_read _ n hnz hz]
      simp only [lt_irrefl, if_false]
      exact hz
    have hlen : strlen (_reverse (s.out.write n 0)) = n := by
      apply strlen_eq_of_reads _ _ _ hrz
      intro j hj
      rw [hrd j hj]
      have := hD (n - 1 - j)
      omega
    refine ⟨⟨by rw [hlen]; exact hrz, ?_⟩, ?_, hlen⟩
    · intro j hj
      rw [hlen] at hj
      rw [hrd j hj]
      exact hD _
    · rw [value_cstr, hlen, ← hval]
      apply lev_congr
      intro j hj
      rw [digitR_eq _ j (by rw [hlen]; exact hj), hlen, hrd _ (by omega)]
      have : n - 1 - (n - j - 1) = j := by omega
      rw [this]
      rfl
  by_cases hc0 : bufDigit s.out m = 0
  · have hs : ¬ (s.carry ≠ 0) := by rw [hC', hc0]; simp
    simp only [hs, if_false]
    rw [hc0] at hV
    simp only [Nat.zero_mul, Nat.add_zero] at hV
    have hcond : ¬ (10 ^ m ≤ value (cstr a) * value (cstr b)) := by omega
    rw [if_neg hcond]
    obtain ⟨m1, m2, m3⟩ := main m (by omega) hV
    exact ⟨m1, m2, m3, by simp [hcond]⟩
  · have hs : s.carry ≠ 0 := by rw [hC']; exact_mod_cast hc0
    simp only [hs, if_true, ne_eq, not_false_eq_true]
    have hge : 1 * 10 ^ m ≤ bufDigit s.out m * 10 ^ m := Nat.mul_le_mul_right _ (by omega)
    have hcond : 10 ^ m ≤ value (cstr a) * value (cstr b) := by omega
    rw [if_pos hcond, e1]
    obtain ⟨m1, m2, m3⟩ := main (m + 1) (le_refl _) (by simp only [lev]; exact hV)
    exact ⟨m1, m2, m3, by simp [hcond]⟩

/-! ## The bit stack -/

theorem d2b_unfold (a : Nat) (top : List Nat) :
    d2b a top = if a / 2 > 0 then d2b (a / 2) ((a % 2) :: top) else (a % 2) :: top := by
  rw [d2b]
  simp only [push, Nat.shiftRight_eq_div_pow, pow_one, Nat.and_one_is_mod]
  split <;> rfl

theorem d2b_append (a : Nat) : ∀ top, d2b a top = d2b a [] ++ top := by
  induction a using Nat.strong_induction_on with
  | _ a ih =>
    intro top
    rw [d2b_unfold a top, d2b_unfold a []]
    by_cases h : a / 2 > 0
    · simp only [h, if_true]
      rw [ih (a / 2) (by omega) ((a % 2) :: top), ih (a / 2) (by omega) [a % 2]]
      simp
    · simp only [h, if_false]
      simp

theorem bitsFrom_append (n : Nat) (l1 l2 : List Nat) :
    bitsFrom n (l1 ++ l2) = bitsFrom (bitsFrom n l1) l2 := by
  simp [bitsFrom, List.foldl_append]

theorem d2b_value (a : Nat) : bitsFrom 0 (d2b a []) = a := by
  induction a using Nat.strong_induction_on with
  | _ a ih =>
    rw [d2b_unfold a []]
    by_cases h : a / 2 > 0
    · simp only [h, if_true]
      rw [d2b_append, bitsFrom_append, ih (a / 2) (by omega)]
      simp only [bitsFrom, List.foldl_cons, List.foldl_nil]
      split <;> omega
    · simp only [h, if_false]
      simp only [bitsFrom, List.foldl_cons, List.foldl_nil]
      split <;> omega

theorem d2b_head (a : Nat) (ha : 1 ≤ a) : ∃ rest, d2b a [] = 1 :: rest := by
  induction a using Nat.strong_induction_on with
  | _ a ih =>
    rw [d2b_unfold a []]
    by_cases h : a / 2 > 0
    · simp only [h, if_true]
      obtain ⟨rest, hr⟩ := ih (a / 2) (by omega) (by omega)
      rw [d2b_append, hr]
      exact ⟨rest ++ [a % 2], by simp⟩
    · simp only [h, if_false]
      have : a % 2 = 1 := by omega
      exact ⟨[], by rw [this]⟩

/-- For `k ≥ 1`, what is left on an empty stack after `d2b(k)` and one `pop()`
spells `k` in binary behind the leading 1. -/
theorem d2b_pop (k : Nat) (hk : 1 ≤ k) : bitsFrom 1 (pop (d2b k [])).2 = k := by
  obtain ⟨rest, hr⟩ := d2b_head k hk
  have h := d2b_value k
  rw [hr] at h ⊢
  simpa [bitsFrom, pop] using h

/-! ## Buffers holding the numeral of a given number -/

theorem numeral_of_value_ge (r : Buf) (hd : DigitStr r) (hpos : 0 < strlen r)
    (hv : 10 ^ (strlen r - 1) ≤ value (cstr r)) : Numeral r := by
  refine ⟨hd, hpos, ?_⟩
  intro h48
  by_contra hne
  obtain ⟨k, hk⟩ : ∃ k, strlen r = k + 1 := ⟨strlen r - 1, by omega⟩
  have hdl := cstr_digitList r hd
  have hcs : cstr r = r.read 0 :: (List.range k).map (fun i => r.read (i + 1)) := by
    unfold cstr
    rw [hk, List.range_succ_eq_map]
    simp [Function.comp_def]
  rw [hcs] at hv hdl
  rw [value_cons, h48, hk] at hv
  have ht : DigitList ((List.range k).map (fun i => r.read (i + 1))) :=
    fun c hc => hdl c (List.mem_cons_of_mem _ hc)
  have := value_lt_pow _ ht
  simp only [List.length_map, List.length_range, Nat.sub_self, Nat.zero_mul, Nat.zero_add,
    Nat.add_sub_cancel] at hv this
  omega

theorem numeral_value_ge (a : Buf) (ha : Numeral a) (hv : 0 < value (cstr a)) :
    10 ^ (strlen a - 1) ≤ value (cstr a) := by
  by_cases h2 : 2 ≤ strlen a
  · have := normal_value_ge _ (numeral_normal a ha) (by rw [cstr_length]; exact h2)
    rwa [cstr_length] at this
  · have h1 : strlen a = 1 := by have := ha.2.1; omega
    rw [h1]
    simpa using hv

theorem holds_decimal (x : Buf) (n : Nat) (h : Holds x n) : cstr x = decimal n := by
  rw [← h.2]
  exact normal_eq_decimal _ (numeral_normal x h.1)

theorem holds_add (a b out : Buf) (m n : Nat) (ha : Holds a m) (hb : Holds b n) :
    Holds (string_add a b out) (m + n) :=
  ⟨string_add_numeral a b out ha.1 hb.1, by
    rw [string_add_value a b out ha.1.1 hb.1.1, ha.2, hb.2]⟩

theorem holds_sub (a b out : Buf) (m n : Nat) (ha : Holds a m) (hb : Holds b n)
    (hle : n ≤ m) (hbig : 10 ^ (strlen a - 1) ≤ 10 * (m - n)) :
    Holds (string_sub a b out) (m - n) := by
  have hv : value (cstr (string_sub a b out)) = m - n := by
    rw [string_sub_value a b out ha.1 hb.1 (by rw [ha.2, hb.2]; exact hle), ha.2, hb.2]
  refine ⟨?_, hv⟩
  have hpos := ha.1.2.1
  have hd := string_sub_digitStr a b out ha.1.1 hb.1.1 hpos
  have hlen := string_sub_strlen a b out ha.1.1 hb.1.1 hpos
  obtain ⟨h1, h2⟩ := string_sub_reads a b out ha.1.1 hb.1.1 hpos
  obtain ⟨k, hk⟩ : ∃ k, strlen a = k + 1 := ⟨strlen a - 1, by omega⟩
  rw [hk] at hbig
  simp only [Nat.add_sub_cancel] at hbig
  by_cases hD : subDigit (digitR a) (digitR b) (strlen a - 1) = 0
  · -- the top digit is dropped
    have hsl : subLen a b = k := by
      unfold subLen
      simp only [hD, ne_eq, not_true_eq_false, if_false]
      omega
    have hk0 : 0 < k := by
      by_contra h0
      have hk0 : k = 0 := by omega
      have e : value (cstr (string_sub a b out)) = 0 := by
        have : cstr (string_sub a b out) = [] := by
          unfold cstr; rw [hlen, hsl, hk0]; rfl
        rw [this]; rfl
      rw [hk0] at hbig
      simp at hbig
      omega
    apply numeral_of_value_ge _ hd (by rw [hlen, hsl]; exact hk0)
    rw [hlen, hsl, hv]
    obtain ⟨k', hk'⟩ : ∃ k', k = k' + 1 := ⟨k - 1, by omega⟩
    rw [hk'] at hbig ⊢
    simp only [Nat.add_sub_cancel]
    rw [pow_succ] at hbig
    omega
  · have hsl : subLen a b = k + 1 := by
      unfold subLen
      simp only [hD, ne_eq, not_false_eq_true, if_true]
      exact hk
    refine ⟨hd, by rw [hlen, hsl]; omega, ?_⟩
    intro h48
    exfalso
    rw [h1 0 (by rw [hsl]; omega), hsl] at h48
    rw [hk] at hD
    simp only [Nat.add_sub_cancel, Nat.sub_zero] at h48 hD
    omega

theorem holds_mul (a b out : Buf) (m n : Nat) (ha : Holds a m) (hb : Holds b n)
    (hm : 0 < m) (hn : 0 < n) (hout : ∀ j, out.read j = 48) :
    Holds (string_mul a b out) (m * n) := by
  obtain ⟨hd, hv, hl, _⟩ := string_mul_spec a b out ha.1.1 hb.1.1 hout ha.1.2.1 hb.1.2.1
  have hla := ha.1.2.1
  have hlb := hb.1.2.1
  have hva := numeral_value_ge a ha.1 (by rw [ha.2]; exact hm)
  have hvb := numeral_value_ge b hb.1 (by rw [hb.2]; exact hn)
  have hprod : 10 ^ (strlen a - 1) * 10 ^ (strlen b - 1) ≤ value (cstr a) * value (cstr b) :=
    Nat.mul_le_mul hva hvb
  rw [← pow_add] at hprod
  refine ⟨?_, by rw [hv, ha.2, hb.2]⟩
  split at hl
  · rename_i hc
    apply numeral_of_value_ge _ hd (by omega)
    rw [hl, hv]
    exact hc
  · apply numeral_of_value_ge _ hd (by omega)
    rw [hl, hv]
    have : strlen a + strlen b - 1 - 1 = strlen a - 1 + (strlen b - 1) := by omega
    rw [this]
    exact hprod

theorem copy_reads (dst src : Buf) (n : Nat) :
    ∀ j, (strncpy dst src n).read j
      = if j < n then (if j ≤ strlen src then src.read j else 0) else dst.read j := by
  induction n with
  | zero => intro j; simp [strncpy, forLoop]
  | succ n ih =>
    intro j
    unfold strncpy at ih ⊢
    simp only [forLoop]
    rw [read_write, ih j]
    by_cases hj : j = n
    · subst hj; simp
    · have : (j < n + 1) ↔ (j < n) := by omega
      simp only [hj, if_false, this]

/-- Copying a digit string with `strncpy(dst, src, strlen(src) + 1)` and
writing the extra NUL behind it leaves the same string in `dst`. -/
theorem copy_spec (dst src : Buf) (hs : DigitStr src) :
    (∀ j, j < strlen src →
      ((strncpy dst src (strlen src + 1)).write (strlen src + 1) 0).read j = src.read j) ∧
    ((strncpy dst src (strlen src + 1)).write (strlen src + 1) 0).read (strlen src) = 0 := by
  constructor
  · intro j hj
    rw [read_write_ne _ _ _ _ (by omega), copy_reads]
    have h1 : j < strlen src + 1 := by omega
    have h2 : j ≤ strlen src := by omega
    simp only [h1, h2, if_true]
  · rw [read_write_ne _ _ _ _ (by omega), copy_reads]
    simp only [Nat.lt_succ_self, le_refl, if_true]
    exact hs.1

theorem holds_copy (dst src : Buf) (n : Nat) (h : Holds src n) :
    Holds ((strncpy dst src (strlen src + 1)).write (strlen src + 1) 0) n := by
  obtain ⟨h1, h2⟩ := copy_spec dst src h.1.1
  generalize (strncpy dst src (strlen src + 1)).write (strlen src + 1) 0 = d at h1 h2
  have hlen : strlen d = strlen src := by
    apply strlen_eq_of_reads _ _ _ h2
    intro i hi
    rw [h1 i hi]
    have := h.1.1.2 i hi
    omega
  have hcs : cstr d = cstr src := by
    unfold cstr
    rw [hlen]
    apply List.map_congr_left
    intro i hi
    exact h1 i (List.mem_range.mp hi)
  refine ⟨⟨⟨by rw [hlen]; exact h2, ?_⟩, by rw [hlen]; exact h.1.2.1, ?_⟩, by rw [hcs]; exact h.2⟩
  · intro i hi
    rw [hlen] at hi
    rw [h1 i hi]
    exact h.1.1.2 i hi
  · intro h48
    rw [hlen]
    rw [h1 0 (h.1.2.1)] at h48
    exact h.1.2.2 h48

theorem holds_literal_one : Holds (ofStr [49]) 1 := by
  refine ⟨?_, by decide⟩
  decide

theorem holds_literal_zero : Holds (ofStr [48]) 0 := by
  refine ⟨?_, by decide⟩
  decide

theorem holds_node_init (str : Buf) (n : Nat) (h : Holds str n) : Holds (node_init str) n :=
  holds_copy (memset 48) str n h

/-! ## The fast-doubling engine -/

theorem fib_le_succ (n : Nat) : Nat.fib n ≤ Nat.fib (n + 1) := Nat.fib_le_fib_succ

theorem fast_double_spec (s : FastState) (n : Nat) (hn : 1 ≤ n)
    (h0 : Holds s.f0 (Nat.fib n)) (h1 : Holds s.f1 (Nat.fib (n + 1))) :
    Holds (fast_double s).f0 (Nat.fib (2 * n)) ∧
      Holds (fast_double s).f1 (Nat.fib (2 * n + 1)) ∧ (fast_double s).top = s.top := by
  have hle := fib_le_succ n
  have hpos : 0 < Nat.fib n := Nat.fib_pos.mpr (by omega)
  have ht1 := holds_add s.f1 s.f1 (memset 0) _ _ h1 h1
  have hbig : 10 ^ (strlen (string_add s.f1 s.f1 (memset 0)) - 1)
      ≤ 10 * (Nat.fib (n + 1) + Nat.fib (n + 1) - Nat.fib n) := by
    have := numeral_value_ge _ ht1.1 (by rw [ht1.2]; omega)
    rw [ht1.2] at this
    omega
  have ht2 := holds_sub _ s.f0 (memset 0) _ _ ht1 h0 (by omega) hbig
  have ha := holds_mul s.f0 _ (memset 48) _ _ h0 ht2 hpos (by omega) (read_memset 48)
  have hsq0 := holds_mul s.f0 s.f0 (memset 48) _ _ h0 h0 hpos hpos (read_memset 48)
  have hsq1 := holds_mul s.f1 s.f1 (memset 48) _ _ h1 h1 (by omega) (by omega) (read_memset 48)
  have hf0 := holds_copy s.f0 _ _ ha
  have hf1 := holds_add _ _ s.f1 _ _ hsq1 hsq0
  unfold fast_double
  dsimp only
  refine ⟨?_, ?_, rfl⟩
  · have e : Nat.fib (2 * n)
        = Nat.fib n * (Nat.fib (n + 1) + Nat.fib (n + 1) - Nat.fib n) := by
      rw [Nat.fib_two_mul, Nat.two_mul]
    rw [e]
    exact hf0
  · have e : Nat.fib (2 * n + 1)
        = Nat.fib (n + 1) * Nat.fib (n + 1) + Nat.fib n * Nat.fib n := by
      rw [Nat.fib_two_mul_add_one]; ring
    rw [e]
    exact hf1

theorem fast_advance_spec (s : FastState) (n : Nat)
    (h0 : Holds s.f0 (Nat.fib n)) (h1 : Holds s.f1 (Nat.fib (n + 1))) :
    Holds (fast_advance s).f0 (Nat.fib (n + 1)) ∧
      Holds (fast_advance s).f1 (Nat.fib (n + 2)) ∧ (fast_advance s).top = s.top := by
  have ht := holds_add s.f0 s.f1 s.tmp1 _ _ h0 h1
  rw [← Nat.fib_add_two] at ht
  exact ⟨holds_copy s.f0 s.f1 _ h1, holds_copy s.f1 _ _ ht, rfl⟩

theorem fast_body_spec (s : FastState) (n bit : Nat) (rest : List Nat) (hn : 1 ≤ n)
    (h0 : Holds s.f0 (Nat.fib n)) (h1 : Holds s.f1 (Nat.fib (n + 1)))
    (htop : s.top = bit :: rest) :
    Holds (fast_body s).f0 (Nat.fib (2 * n + (if bit ≠ 0 then 1 else 0))) ∧
      Holds (fast_body s).f1 (Nat.fib (2 * n + (if bit ≠ 0 then 1 else 0) + 1)) ∧
      (fast_body s).top = rest := by
  obtain ⟨d0, d1, dt⟩ := fast_double_spec s n hn h0 h1
  unfold fast_body
  generalize fast_double s = d at d0 d1 dt ⊢
  simp only [dt, htop, pop]
  by_cases hb : bit = 0
  · simp only [hb, ne_eq, not_true_eq_false, if_false, Nat.add_zero]
    exact ⟨d0, d1, trivial⟩
  · simp only [hb, ne_eq, not_false_eq_true, if_true]
    obtain ⟨a0, a1, at_⟩ := fast_advance_spec
      { f0 := d.f0, f1 := d.f1, tmp1 := d.tmp1, tmp2 := d.tmp2, top := rest } (2 * n) d0 d1
    exact ⟨a0, a1, at_⟩

theorem fast_loop_spec (bits : List Nat) :
    ∀ (fuel : Nat) (s : FastState) (n : Nat), 1 ≤ n → bits.length ≤ fuel →
      Holds s.f0 (Nat.fib n) → Holds s.f1 (Nat.fib (n + 1)) → s.top = bits →
      Holds (fast_loop fuel s).f0 (Nat.fib (bitsFrom n bits)) ∧
        Holds (fast_loop fuel s).f1 (Nat.fib (bitsFrom n bits + 1)) ∧
        (fast_loop fuel s).top = [] := by
  induction bits with
  | nil =>
    intro fuel s n _ _ h0 h1 htop
    have : fast_loop fuel s = s := by
      cases fuel with
      | zero => rfl
      | succ f => simp [fast_loop, htop]
    rw [this]
    exact ⟨h0, h1, htop⟩
  | cons bit rest ih =>
    intro fuel s n hn hf h0 h1 htop
    cases fuel with
    | zero => simp at hf
    | succ f =>
      simp only [fast_loop, htop, ne_eq, reduceCtorEq, not_false_eq_true, if_true]
      obtain ⟨b0, b1, bt⟩ := fast_body_spec s n bit rest hn h0 h1 htop
      have := ih f (fast_body s) (2 * n + (if bit ≠ 0 then 1 else 0)) (by omega)
        (by simpa using hf) b0 b1 bt
      simpa [bitsFrom] using this

/-- The state of `fib_fast_str(k)` at the label `end`, started on an empty stack. -/
theorem fib_fast_end_spec (k : Nat) (tmp1 tmp2 : Buf) :
    Holds (fib_fast_end k tmp1 tmp2 []).f0 (Nat.fib k) ∧ (fib_fast_end k tmp1 tmp2 []).top = [] := by
  unfold fib_fast_end
  by_cases hk : k = 0
  · subst hk
    simp only [if_true]
    exact ⟨holds_node_init _ _ holds_literal_zero, trivial⟩
  · simp only [hk, if_false]
    have hbits := d2b_pop k (by omega)
    obtain ⟨r0, _, rt⟩ := fast_loop_spec (pop (d2b k [])).2 (pop (d2b k [])).2.length
      { f0 := node_init (ofStr [49]), f1 := node_init (ofStr [49]), tmp1 := tmp1, tmp2 := tmp2,
        top := (pop (d2b k [])).2 } 1 (le_refl _) (le_refl _)
      (holds_node_init _ _ holds_literal_one) (holds_node_init _ _ holds_literal_one) rfl
    rw [hbits] at r0
    exact ⟨r0, rt⟩

/-- The bytes `fib_fast_str(k)` copies out are the decimal numeral of `F(k)`. -/
theorem fib_fast_str_out (k : Nat) (tmp1 tmp2 : Buf) :
    (fib_fast_str k tmp1 tmp2 []).out = decimal (Nat.fib k) := by
  have h := holds_decimal _ _ (fib_fast_end_spec k tmp1 tmp2).1
  simpa [fib_fast_str, cstr] using h

theorem F_eq_fib (n : Nat) : F n = Nat.fib n := by
  induction n using Nat.strong_induction_on with
  | _ n ih =>
    match n with
    | 0 => rfl
    | 1 => rfl
    | m + 2 =>
      rw [F, ih (m + 1) (by omega), ih m (by omega), Nat.fib_add_two, Nat.add_comm]


/-! ## Further facts used by the stated properties -/

theorem value_replicate_zero (n : Nat) : value (List.replicate n 48) = 0 := by
  induction n with
  | zero => rfl
  | succ n ih => rw [List.replicate_succ, value_cons, ih]; simp

theorem digitList_replicate_zero (n : Nat) : DigitList (List.replicate n 48) := by
  intro c hc
  have := List.eq_of_mem_replicate hc
  omega

theorem numeral_of_single (z : Buf) (c : Nat) (hz : DigitStr z) (hc : cstr z = [c]) :
    Numeral z := by
  have hl : strlen z = 1 := by rw [← cstr_length, hc]; rfl
  exact ⟨hz, by omega, fun _ => hl⟩

/-- The final carry of the loop of `string_add`, in numbers. -/
theorem string_add_carry_iff (a b out : Buf) (ha : DigitStr a) (hb : DigitStr b) :
    (forLoop (_max (strlen a) (strlen b)) (string_add_body a b (strlen a) (strlen b))
        ⟨out, 0, 0⟩).carry ≠ 0 ↔
      10 ^ max (strlen a) (strlen b) ≤ value (cstr a) + value (cstr b) := by
  rw [max_eq, (add_loop_spec a b out ha hb _).1,
    ← addCarry_iff a b ha hb _ (le_max_left _ _) (le_max_right _ _)]
  have := addCarry_le (digitR a) (digitR b) (digitR_le a ha) (digitR_le b hb)
    (max (strlen a) (strlen b))
  constructor
  · intro h
    have h' : addCarry (digitR a) (digitR b) (max (strlen a) (strlen b)) ≠ 0 := by
      exact_mod_cast h
    omega
  · intro h
    rw [h]
    decide

theorem string_add_length (a b out : Buf) (ha : DigitStr a) (hb : DigitStr b) :
    strlen (string_add a b out)
      = if 10 ^ max (strlen a) (strlen b) ≤ value (cstr a) + value (cstr b)
        then max (strlen a) (strlen b) + 1 else max (strlen a) (strlen b) := by
  rw [string_add_strlen a b out ha hb]
  unfold sumLen
  have h1 := addCarry_iff a b ha hb _ (le_max_left (strlen a) (strlen b)) (le_max_right _ _)
  have h2 := addCarry_le (digitR a) (digitR b) (digitR_le a ha) (digitR_le b hb)
    (max (strlen a) (strlen b))
  split
  · rename_i h
    rw [h1.mpr h]
  · rename_i h
    have : addCarry (digitR a) (digitR b) (max (strlen a) (strlen b)) = 0 := by
      by_contra hne
      exact h (h1.mp (by omega))
    rw [this]; rfl

theorem string_mul_zero_cstr (a z out : Buf) (ha : DigitStr a) (hpos : 0 < strlen a)
    (hz : DigitStr z) (hz0 : cstr z = [48]) (hout : ∀ j, out.read j = 48) :
    cstr (string_mul a z out) = List.replicate (strlen a) 48 := by
  have hl : strlen z = 1 := by rw [← cstr_length, hz0]; rfl
  obtain ⟨hd, hv, hlen, _⟩ := string_mul_spec a z out ha hz hout hpos (by omega)
  rw [hz0] at hv hlen
  have hv0 : value (cstr (string_mul a z out)) = 0 := by rw [hv]; simp [value]
  have hcond : ¬ (10 ^ (strlen a + strlen z - 1) ≤ value (cstr a) * value [48]) := by
    have : value [48] = 0 := rfl
    rw [this, Nat.mul_zero]
    have : 0 < 10 ^ (strlen a + strlen z - 1) := by positivity
    omega
  rw [if_neg hcond, hl] at hlen
  apply value_inj_of_length _ _ (cstr_digitList _ hd) (digitList_replicate_zero _)
  · rw [cstr_length, hlen]; simp
  · rw [hv0, value_replicate_zero]

theorem string_mul_one_cstr (a one out : Buf) (ha : DigitStr a) (hpos : 0 < strlen a)
    (h1 : DigitStr one) (h10 : cstr one = [49]) (hout : ∀ j, out.read j = 48) :
    cstr (string_mul a one out) = cstr a := by
  have hl : strlen one = 1 := by rw [← cstr_length, h10]; rfl
  obtain ⟨hd, hv, hlen, _⟩ := string_mul_spec a one out ha h1 hout hpos (by omega)
  rw [h10] at hv hlen
  have hv1 : value [49] = 1 := rfl
  rw [hv1, Nat.mul_one] at hv hlen
  have hlt := value_lt_pow _ (cstr_digitList a ha)
  rw [cstr_length] at hlt
  have hcond : ¬ (10 ^ (strlen a + strlen one - 1) ≤ value (cstr a)) := by
    rw [hl]
    simp only [Nat.add_sub_cancel]
    omega
  rw [if_neg hcond, hl] at hlen
  apply value_inj_of_length _ _ (cstr_digitList _ hd) (cstr_digitList a ha)
  · rw [cstr_length, cstr_length, hlen]; simp
  · exact hv

theorem string_add_zero_cstr (a z out : Buf) (ha : Numeral a) (hz : DigitStr z)
    (hz0 : cstr z = [48]) : cstr (string_add a z out) = cstr a := by
  have hzn := numeral_of_single z 48 hz hz0
  apply numeral_unique _ _ (string_add_numeral a z out ha hzn) ha
  rw [string_add_value a z out ha.1 hz, hz0]
  simp [value]

theorem sub_add_holds (a b o1 o2 : Buf) (ha : Numeral a) (hb : Numeral b)
    (hnz : 0 < value (cstr a)) (hlen : strlen (string_add a b o1) ≤ strlen a + 1) :
    cstr (string_sub (string_add a b o1) b o2) = cstr a := by
  have hs := holds_add a b o1 _ _ ⟨ha, rfl⟩ ⟨hb, rfl⟩
  have hge := numeral_value_ge a ha hnz
  have hbig : 10 ^ (strlen (string_add a b o1) - 1)
      ≤ 10 * (value (cstr a) + value (cstr b) - value (cstr b)) := by
    rw [Nat.add_sub_cancel]
    have h1 : 10 ^ (strlen (string_add a b o1) - 1) ≤ 10 ^ strlen a :=
      Nat.pow_le_pow_right (by omega) (by omega)
    have h2 : 10 ^ strlen a = 10 * 10 ^ (strlen a - 1) := by
      have hp := ha.2.1
      obtain ⟨k, hk⟩ : ∃ k, strlen a = k + 1 := ⟨strlen a - 1, by omega⟩
      rw [hk, pow_succ]; simp [Nat.mul_comm]
    omega
  have hr := holds_sub _ b o2 _ _ hs ⟨hb, rfl⟩ (by omega) hbig
  rw [Nat.add_sub_cancel] at hr
  exact numeral_unique _ _ hr.1 ha hr.2

theorem fib_fast_str_at (k : Nat) (v : Nat) (s : String) (hv : Nat.fib k = v)
    (hs : decimal v = chars s) (tmp1 tmp2 : Buf) :
    (fib_fast_str k tmp1 tmp2 []).out = chars s := by
  rw [fib_fast_str_out, hv, hs]

/-! ## The stated properties -/

/-- C1: for every index `k` (buffers without a capacity limit, the bit stack
empty on entry) the string `fib_fast_str` copies out is exactly the decimal
numeral of the Fibonacci number `F(k)`: a normalized numeral of value `F(k)`,
whose length is the return value; in particular it is "0", "1", "1", "55",
"12586269025" and "354224848179261915075" for `k` = 0, 1, 2, 10, 50, 100. -/
theorem fib_fast_str_fibonacci :
    (∀ (k : Nat) (tmp1 tmp2 : Buf),
      (fib_fast_str k tmp1 tmp2 []).out = decimal (F k) ∧
      NormalList (fib_fast_str k tmp1 tmp2 []).out ∧
      value (fib_fast_str k tmp1 tmp2 []).out = F k ∧
      (fib_fast_str k tmp1 tmp2 []).ret = (fib_fast_str k tmp1 tmp2 []).out.length) ∧
    (∀ tmp1 tmp2 : Buf, (fib_fast_str 0 tmp1 tmp2 []).out = chars "0") ∧
    (∀ tmp1 tmp2 : Buf, (fib_fast_str 1 tmp1 tmp2 []).out = chars "1") ∧
    (∀ tmp1 tmp2 : Buf, (fib_fast_str 2 tmp1 tmp2 []).out = chars "1") ∧
    (∀ tmp1 tmp2 : Buf, (fib_fast_str 10 tmp1 tmp2 []).out = chars "55") ∧
    (∀ tmp1 tmp2 : Buf, (fib_fast_str 50 tmp1 tmp2 []).out = chars "12586269025") ∧
    (∀ tmp1 tmp2 : Buf, (fib_fast_str 100 tmp1 tmp2 []).out = chars "354224848179261915075") := by
  refine ⟨?_, ?_, ?_, ?_, ?_, ?_, ?_⟩
  · intro k tmp1 tmp2
    have h := fib_fast_str_out k tmp1 tmp2
    rw [← F_eq_fib] at h
    refine ⟨h, ?_, ?_, ?_⟩
    · rw [h]; exact decimal_normal _
    · rw [h]; exact decimal_value _
    · simp [fib_fast_str]
  · exact fib_fast_str_at 0 0 "0" (by norm_num) (by simp [decimal, chars])
  · exact fib_fast_str_at 1 1 "1" (by norm_num) (by simp [decimal, chars])
  · exact fib_fast_str_at 2 1 "1" (by norm_num) (by simp [decimal, chars])
  · exact fib_fast_str_at 10 55 "55" (by norm_num) (by simp [decimal, chars])
  · exact fib_fast_str_at 50 12586269025 "12586269025" (by norm_num) (by simp [decimal, chars])
  · exact fib_fast_str_at 100 354224848179261915075 "354224848179261915075" (by norm_num)
      (by simp [decimal, chars])

/-- C2: at `k = 12`, on nodes whose fresh memory holds the byte 'x' throughout,
`fib_seq_str` of `fibdrv.c` copies out the four bytes "x144", while
`fib_fast_str` copies out "144": the two engines differ. -/
theorem fib_seq_str_stray_byte :
    (Seq.fib_seq_str 12 (fun _ => memset 120)).1 = chars "x144" ∧
    (∀ tmp1 tmp2 : Buf, (fib_fast_str 12 tmp1 tmp2 []).out = chars "144") ∧
    chars "x144" ≠ chars "144" := by
  refine ⟨by decide, ?_, by decide⟩
  exact fib_fast_str_at 12 144 "144" (by norm_num) (by simp [decimal, chars])

/-- C3: for digit strings `a` and `b`, `string_add` of `fast_fibdrv.c` leaves
in `out` a NUL-terminated digit string whose value is `value a + value b`; its
length is the larger of the two lengths, or one more exactly when a final
carry remains, that is when the sum does not fit in that many digits. -/
theorem string_add_sum (a b out : Buf) (ha : DigitStr a) (hb : DigitStr b) :
    DigitStr (string_add a b out) ∧
    value (cstr (string_add a b out)) = value (cstr a) + value (cstr b) ∧
    (cstr (string_add a b out)).length
      = (if (forLoop (_max (strlen a) (strlen b))
              (string_add_body a b (strlen a) (strlen b)) ⟨out, 0, 0⟩).carry ≠ 0
          then max (cstr a).length (cstr b).length + 1
          else max (cstr a).length (cstr b).length) ∧
    ((forLoop (_max (strlen a) (strlen b))
        (string_add_body a b (strlen a) (strlen b)) ⟨out, 0, 0⟩).carry ≠ 0 ↔
      10 ^ max (cstr a).length (cstr b).length ≤ value (cstr a) + value (cstr b)) := by
  have hc := string_add_carry_iff a b out ha hb
  refine ⟨string_add_digitStr a b out ha hb, string_add_value a b out ha hb, ?_, ?_⟩
  · rw [cstr_length, cstr_length, cstr_length, string_add_length a b out ha hb]
    by_cases h : 10 ^ max (strlen a) (strlen b) ≤ value (cstr a) + value (cstr b)
    · rw [if_pos h, if_pos (hc.mpr h)]
    · rw [if_neg h, if_neg (fun h' => h (hc.mp h'))]
  · rw [cstr_length, cstr_length]
    exact hc

/-- Witness of C3 on "95" + "7". -/
theorem string_add_sum_witness :
    DigitStr (ofStr (chars "95")) ∧ DigitStr (ofStr (chars "7")) ∧
    cstr (string_add (ofStr (chars "95")) (ofStr (chars "7")) (memset 0)) = chars "102" ∧
    value (cstr (string_add (ofStr (chars "95")) (ofStr (chars "7")) (memset 0)))
      = value (cstr (ofStr (chars "95"))) + value (cstr (ofStr (chars "7"))) :=
  ⟨by decide, by decide, by decide,
    (string_add_sum (ofStr (chars "95")) (ofStr (chars "7")) (memset 0)
      (by decide) (by decide)).2.1⟩

/-- C4: for normalized numerals `a` and `b` with `value a ≥ value b`, the digit
string `string_sub` leaves in `out` has the value `value a - value b` (an empty
string reading as 0). -/
theorem string_sub_difference (a b out : Buf) (ha : Numeral a) (hb : Numeral b)
    (hv : value (cstr b) ≤ value (cstr a)) :
    DigitStr (string_sub a b out) ∧
    value (cstr (string_sub a b out)) = value (cstr a) - value (cstr b) :=
  ⟨string_sub_digitStr a b out ha.1 hb.1 ha.2.1, string_sub_value a b out ha hb hv⟩

/-- Witness of C4 on "100" - "99" and on "5" - "5". -/
theorem string_sub_difference_witness :
    value (cstr (string_sub (ofStr (chars "100")) (ofStr (chars "99")) (memset 0)))
      = value (cstr (ofStr (chars "100"))) - value (cstr (ofStr (chars "99"))) ∧
    value (cstr (string_sub (ofStr (chars "5")) (ofStr (chars "5")) (memset 0)))
      = value (cstr (ofStr (chars "5"))) - value (cstr (ofStr (chars "5"))) :=
  ⟨(string_sub_difference (ofStr (chars "100")) (ofStr (chars "99")) (memset 0)
      (by decide) (by decide) (by decide)).2,
   (string_sub_difference (ofStr (chars "5")) (ofStr (chars "5")) (memset 0)
      (by decide) (by decide) (by decide)).2⟩

/-- C5: for non-empty digit strings `a` and `b` and an `out` buffer filled with
'0', `string_mul` leaves in `out` a digit string whose value is
`value a * value b`; its length is `len a + len b - 1`, or `len a + len b`
when the top position carries, that is when the product needs that many digits. -/
theorem string_mul_product (a b out : Buf) (ha : DigitStr a) (hb : DigitStr b)
    (hla : 0 < (cstr a).length) (hlb : 0 < (cstr b).length) (hout : ∀ j, out.read j = 48) :
    DigitStr (string_mul a b out) ∧
    value (cstr (string_mul a b out)) = value (cstr a) * value (cstr b) ∧
    (cstr (string_mul a b out)).length
      = (if (forLoop (strlen b) (string_mul_outer a b) ⟨out, 0, 0⟩).carry ≠ 0
          then (cstr a).length + (cstr b).length
          else (cstr a).length + (cstr b).length - 1) ∧
    ((forLoop (strlen b) (string_mul_outer a b) ⟨out, 0, 0⟩).carry ≠ 0 ↔
      10 ^ ((cstr a).length + (cstr b).length - 1) ≤ value (cstr a) * value (cstr b)) := by
  rw [cstr_length] at hla hlb
  obtain ⟨h1, h2, h3, h4⟩ := string_mul_spec a b out ha hb hout hla hlb
  refine ⟨h1, h2, ?_, ?_⟩
  · rw [cstr_length, cstr_length, cstr_length, h3]
    by_cases h : 10 ^ (strlen a + strlen b - 1) ≤ value (cstr a) * value (cstr b)
    · rw [if_pos h, if_pos (h4.mpr h)]
    · rw [if_neg h, if_neg (fun h' => h (h4.mp h'))]
  · rw [cstr_length, cstr_length]
    exact h4

/-- Witness of C5 on "25" * "4" (three digits) and "99" * "99" (four digits). -/
theorem string_mul_product_witness :
    cstr (string_mul (ofStr (chars "25")) (ofStr (chars "4")) (memset 48)) = chars "100" ∧
    cstr (string_mul (ofStr (chars "99")) (ofStr (chars "99")) (memset 48)) = chars "9801" ∧
    value (cstr (string_mul (ofStr (chars "25")) (ofStr (chars "4")) (memset 48)))
      = value (cstr (ofStr (chars "25"))) * value (cstr (ofStr (chars "4"))) :=
  ⟨by decide, by decide,
    (string_mul_product (ofStr (chars "25")) (ofStr (chars "4")) (memset 48)
      (by decide) (by decide) (by decide) (by decide) (read_memset 48)).2.1⟩

/-- C6, as stated, fails: for the normalized numerals "1" and "99",
`Subtract(Add(a, b), b)` is the string "01", not "1"; for "0" and "5" it is
the empty string, not "0". -/
theorem sub_add_counterexample :
    Numeral (ofStr (chars "1")) ∧ Numeral (ofStr (chars "99")) ∧
    cstr (string_sub (string_add (ofStr (chars "1")) (ofStr (chars "99")) (memset 0))
      (ofStr (chars "99")) (memset 0)) = chars "01" ∧
    cstr (string_sub (string_add (ofStr (chars "1")) (ofStr (chars "99")) (memset 0))
      (ofStr (chars "99")) (memset 0)) ≠ cstr (ofStr (chars "1")) ∧
    Numeral (ofStr (chars "0")) ∧ Numeral (ofStr (chars "5")) ∧
    cstr (string_sub (string_add (ofStr (chars "0")) (ofStr (chars "5")) (memset 0))
      (ofStr (chars "5")) (memset 0)) = [] := by
  decide

/-- C6, amended: for normalized numerals `a` and `b`, `Subtract(Add(a, b), b)`
has the numeric value of `a`; it is the string `a` itself whenever `a` is not
zero and `Add(a, b)` has at most one digit more than `a`. -/
theorem sub_add_roundtrip (a b o1 o2 : Buf) (ha : Numeral a) (hb : Numeral b) :
    value (cstr (string_sub (string_add a b o1) b o2)) = value (cstr a) ∧
    (0 < value (cstr a) → (cstr (string_add a b o1)).length ≤ (cstr a).length + 1 →
      cstr (string_sub (string_add a b o1) b o2) = cstr a) := by
  constructor
  · have hs := holds_add a b o1 _ _ ⟨ha, rfl⟩ ⟨hb, rfl⟩
    rw [string_sub_value _ b o2 hs.1 hb (by rw [hs.2]; omega), hs.2, Nat.add_sub_cancel]
  · intro hnz hlen
    rw [cstr_length, cstr_length] at hlen
    exact sub_add_holds a b o1 o2 ha hb hnz hlen

/-- Witness of the amended C6 on "17" and "5". -/
theorem sub_add_roundtrip_witness :
    value (cstr (string_sub (string_add (ofStr (chars "17")) (ofStr (chars "5")) (memset 0))
      (ofStr (chars "5")) (memset 0))) = value (cstr (ofStr (chars "17"))) ∧
    cstr (string_sub (string_add (ofStr (chars "17")) (ofStr (chars "5")) (memset 0))
      (ofStr (chars "5")) (memset 0)) = cstr (ofStr (chars "17")) :=
  ⟨(sub_add_roundtrip (ofStr (chars "17")) (ofStr (chars "5")) (memset 0) (memset 0)
      (by decide) (by decide)).1,
   (sub_add_roundtrip (ofStr (chars "17")) (ofStr (chars "5")) (memset 0) (memset 0)
      (by decide) (by decide)).2 (by decide) (by decide)⟩

/-- C7, as stated, fails: "100" - "99" leaves "01", which has a leading zero,
and "5" - "5" leaves the empty string, not "0". -/
theorem string_sub_counterexample :
    Numeral (ofStr (chars "100")) ∧ Numeral (ofStr (chars "99")) ∧
    value (cstr (ofStr (chars "99"))) ≤ value (cstr (ofStr (chars "100"))) ∧
    cstr (string_sub (ofStr (chars "100")) (ofStr (chars "99")) (memset 0)) = chars "01" ∧
    ¬ Numeral (string_sub (ofStr (chars "100")) (ofStr (chars "99")) (memset 0)) ∧
    Numeral (ofStr (chars "5")) ∧
    cstr (string_sub (ofStr (chars "5")) (ofStr (chars "5")) (memset 0)) = [] ∧
    cstr (string_sub (ofStr (chars "5")) (ofStr (chars "5")) (memset 0)) ≠ chars "0" := by
  decide

/-- C7, amended: for normalized numerals `a` and `b` with `value a > value b`
whose difference has at least `len a - 1` digits, the output of `string_sub`
is the normalized numeral of the difference. -/
theorem string_sub_normalized (a b out : Buf) (ha : Numeral a) (hb : Numeral b)
    (hv : value (cstr b) < value (cstr a))
    (hbig : 10 ^ ((cstr a).length - 1) ≤ 10 * (value (cstr a) - value (cstr b))) :
    Numeral (string_sub a b out) ∧ NormalList (cstr (string_sub a b out)) ∧
    cstr (string_sub a b out) = decimal (value (cstr a) - value (cstr b)) := by
  rw [cstr_length] at hbig
  have h := holds_sub a b out _ _ ⟨ha, rfl⟩ ⟨hb, rfl⟩ (by omega) hbig
  exact ⟨h.1, numeral_normal _ h.1, holds_decimal _ _ h⟩

/-- Witness of the amended C7 on "100" - "1", where one leading zero is stripped. -/
theorem string_sub_normalized_witness :
    cstr (string_sub (ofStr (chars "100")) (ofStr (chars "1")) (memset 0)) = chars "99" ∧
    Numeral (string_sub (ofStr (chars "100")) (ofStr (chars "1")) (memset 0)) :=
  ⟨by decide,
   (string_sub_normalized (ofStr (chars "100")) (ofStr (chars "1")) (memset 0)
      (by decide) (by decide) (by decide) (by decide)).1⟩

/-- C8, as stated, fails: `Multiply("12", "0")` on an `out` filled with '0' is
the string "00", not "0". -/
theorem string_mul_zero_counterexample :
    Numeral (ofStr (chars "12")) ∧
    cstr (string_mul (ofStr (chars "12")) (ofStr (chars "0")) (memset 48)) = chars "00" ∧
    cstr (string_mul (ofStr (chars "12")) (ofStr (chars "0")) (memset 48)) ≠ chars "0" := by
  decide

/-- C8, amended: for a normalized numeral `a`, `Multiply(a, "0")` on an `out`
filled with '0' is a string of `len a` digits '0', of numeric value 0; it is
"0" exactly when `a` has a single digit. -/
theorem string_mul_zero_digits (a z out : Buf) (ha : Numeral a) (hz : DigitStr z)
    (hz0 : cstr z = chars "0") (hout : ∀ j, out.read j = 48) :
    cstr (string_mul a z out) = List.replicate (cstr a).length 48 ∧
    value (cstr (string_mul a z out)) = 0 ∧
    (cstr (string_mul a z out) = chars "0" ↔ (cstr a).length = 1) := by
  have e : chars "0" = [48] := by decide
  rw [e] at hz0
  have h := string_mul_zero_cstr a z out ha.1 ha.2.1 hz hz0 hout
  rw [cstr_length, h, e]
  refine ⟨rfl, value_replicate_zero _, ?_⟩
  constructor
  · intro h1
    have := congrArg List.length h1
    simpa using this
  · intro h1
    rw [h1]; rfl

/-- Witness of the amended C8 on "12" and on "7". -/
theorem string_mul_zero_digits_witness :
    cstr (string_mul (ofStr (chars "12")) (ofStr (chars "0")) (memset 48))
      = List.replicate (cstr (ofStr (chars "12"))).length 48 ∧
    cstr (string_mul (ofStr (chars "7")) (ofStr (chars "0")) (memset 48)) = chars "0" :=
  ⟨(string_mul_zero_digits (ofStr (chars "12")) (ofStr (chars "0")) (memset 48)
      (by decide) (by decide) (by decide) (read_memset 48)).1,
   (string_mul_zero_digits (ofStr (chars "7")) (ofStr (chars "0")) (memset 48)
      (by decide) (by decide) (by decide) (read_memset 48)).2.2.mpr (by decide)⟩

/-- C9: on normalized numerals `string_add` of `fast_fibdrv.c` is commutative
and associative as far as the output strings go, whatever the `out` buffers
held before. -/
theorem string_add_comm_assoc (a b c o1 o2 o3 o4 o5 o6 : Buf)
    (ha : Numeral a) (hb : Numeral b) (hc : Numeral c) :
    cstr (string_add a b o1) = cstr (string_add b a o2) ∧
    cstr (string_add (string_add a b o3) c o4)
      = cstr (string_add a (string_add b c o5) o6) := by
  constructor
  · rw [string_add_decimal a b o1 ha hb, string_add_decimal b a o2 hb ha, Nat.add_comm]
  · have hab := string_add_numeral a b o3 ha hb
    have hbc := string_add_numeral b c o5 hb hc
    rw [string_add_decimal _ c o4 hab hc, string_add_decimal a _ o6 ha hbc,
      string_add_value a b o3 ha.1 hb.1, string_add_value b c o5 hb.1 hc.1, Nat.add_assoc]

/-- Witness of C9 on "95", "7" and "998". -/
theorem string_add_comm_assoc_witness :
    cstr (string_add (ofStr (chars "95")) (ofStr (chars "7")) (memset 0))
      = cstr (string_add (ofStr (chars "7")) (ofStr (chars "95")) (memset 1)) ∧
    cstr (string_add (string_add (ofStr (chars "95")) (ofStr (chars "7")) (memset 0))
        (ofStr (chars "998")) (memset 0))
      = cstr (string_add (ofStr (chars "95"))
          (string_add (ofStr (chars "7")) (ofStr (chars "998")) (memset 0)) (memset 0)) :=
  string_add_comm_assoc (ofStr (chars "95")) (ofStr (chars "7")) (ofStr (chars "998"))
    (memset 0) (memset 1) (memset 0) (memset 0) (memset 0) (memset 0)
    (by decide) (by decide) (by decide)

/-- C10: for a normalized numeral `a`, `Add(a, "0")` is the string `a`
(`string_add`), and `Multiply(a, "1")` is the string `a` (`string_mul` on an
`out` buffer filled with '0'). -/
theorem string_identities (a zero one o1 o2 : Buf) (ha : Numeral a)
    (hz : DigitStr zero) (hz0 : cstr zero = chars "0")
    (h1 : DigitStr one) (h10 : cstr one = chars "1") (hout : ∀ j, o2.read j = 48) :
    cstr (string_add a zero o1) = cstr a ∧ cstr (string_mul a one o2) = cstr a := by
  have e0 : chars "0" = [48] := by decide
  have e1 : chars "1" = [49] := by decide
  rw [e0] at hz0
  rw [e1] at h10
  exact ⟨string_add_zero_cstr a zero o1 ha hz hz0,
    string_mul_one_cstr a one o2 ha.1 ha.2.1 h1 h10 hout⟩

/-- Witness of C10 on "4096". -/
theorem string_identities_witness :
    cstr (string_add (ofStr (chars "4096")) (ofStr (chars "0")) (memset 0)) = chars "4096" ∧
    cstr (string_mul (ofStr (chars "4096")) (ofStr (chars "1")) (memset 48)) = chars "4096" :=
  string_identities (ofStr (chars "4096")) (ofStr (chars "0")) (ofStr (chars "1"))
    (memset 0) (memset 48) (by decide) (by decide) (by decide) (by decide) (by decide)
    (read_memset 48)

/-! ## More on strings, the stack and the engine -/

theorem strlenCells_of_nonzero (s : List Nat) (h : ∀ c, c ∈ s → c ≠ 0) :
    strlenCells s = s.length := by
  induction s with
  | nil => rfl
  | cons c s ih =>
    have hc : c ≠ 0 := h c (List.mem_cons_self _ _)
    simp only [strlenCells, hc, if_false, List.length_cons]
    rw [ih (fun d hd => h d (List.mem_cons_of_mem _ hd))]

theorem cstr_ofStr (s : List Nat) (h : ∀ c, c ∈ s → c ≠ 0) : cstr (ofStr s) = s := by
  unfold cstr strlen
  simp only [ofStr]
  rw [strlenCells_of_nonzero s h]
  apply List.ext_getElem
  · simp
  · intro i h1 h2
    simp [Buf.read, List.getD_eq_getElem?_getD, List.getElem?_eq_getElem
      (show i < s.length by simpa using h1)]

theorem holds_ofStr (s : List Nat) (hs : NormalList s) : Holds (ofStr s) (value s) := by
  have hnz : ∀ c, c ∈ s → c ≠ 0 := fun c hc => by have := hs.1 c hc; omega
  have hcs := cstr_ofStr s hnz
  have hlen : strlen (ofStr s) = s.length := by rw [← cstr_length, hcs]
  have hpos : 0 < s.length := List.length_pos.mpr hs.2.1
  refine ⟨⟨⟨?_, ?_⟩, by omega, ?_⟩, by rw [hcs]⟩
  · rw [hlen]
    simp [ofStr, Buf.read]
  · intro i hi
    have hmem : (ofStr s).read i ∈ cstr (ofStr s) := by
      unfold cstr
      exact List.mem_map.mpr ⟨i, List.mem_range.mpr hi, rfl⟩
    rw [hcs] at hmem
    exact hs.1 _ hmem
  · intro h48
    have hh := cstr_head (ofStr s) (by omega)
    rw [hcs, h48] at hh
    have := hs.2.2 hh
    rw [hlen, this]
    rfl

theorem holds_ofStr_decimal (n : Nat) : Holds (ofStr (decimal n)) n := by
  have := holds_ofStr (decimal n) (decimal_normal n)
  rwa [decimal_value] at this

/-- The recurrence, checked with `string_add` on the strings `fib_fast_str` returns. -/
theorem fib_fast_str_add (k : Nat) (t1 t2 u1 u2 v1 v2 out : Buf) :
    cstr (string_add (ofStr (fib_fast_str k t1 t2 []).out)
        (ofStr (fib_fast_str (k + 1) u1 u2 []).out) out)
      = (fib_fast_str (k + 2) v1 v2 []).out := by
  rw [fib_fast_str_out, fib_fast_str_out, fib_fast_str_out]
  have h := holds_add _ _ out _ _ (holds_ofStr_decimal (Nat.fib k))
    (holds_ofStr_decimal (Nat.fib (k + 1)))
  rw [holds_decimal _ _ h, Nat.fib_add_two]

theorem fast_double_top (s : FastState) : (fast_double s).top = s.top := by
  unfold fast_double
  dsimp only

theorem fast_body_top (s : FastState) : (fast_body s).top = (pop s.top).2 := by
  have hd := fast_double_top s
  unfold fast_body
  generalize fast_double s = d at hd ⊢
  dsimp only
  split
  · unfold fast_advance
    dsimp only
    rw [hd]
  · dsimp only
    rw [hd]

theorem fast_loop_top (i : Nat) : ∀ s : FastState, (fast_loop i s).top = s.top.drop i := by
  induction i with
  | zero => intro s; simp [fast_loop]
  | succ i ih =>
    intro s
    simp only [fast_loop]
    cases hs : s.top with
    | nil => simp [hs]
    | cons b rest =>
      simp only [ne_eq, reduceCtorEq, not_false_eq_true, if_true]
      rw [ih, fast_body_top, hs]
      simp [pop]

theorem fib_fast_end_eq (k : Nat) (hk : k ≠ 0) (tmp1 tmp2 : Buf) (top : List Nat) :
    fib_fast_end k tmp1 tmp2 top
      = fast_loop (fast_start k tmp1 tmp2 top).top.length (fast_start k tmp1 tmp2 top) := by
  unfold fib_fast_end fast_start
  simp only [hk, if_false]

theorem d2b_length (a : Nat) (ha : 1 ≤ a) : (d2b a []).length = Nat.log 2 a + 1 := by
  induction a using Nat.strong_induction_on with
  | _ a ih =>
    rw [d2b_unfold a []]
    by_cases h : a / 2 > 0
    · simp only [h, if_true]
      rw [d2b_append, List.length_append, ih (a / 2) (by omega) (by omega)]
      rw [Nat.log_of_one_lt_of_le (by omega : 1 < 2) (by omega : 2 ≤ a)]
      simp
    · simp only [h, if_false]
      have : a = 1 := by omega
      subst this
      simp

theorem d2b_bits (a : Nat) : ∀ bit, bit ∈ d2b a [] → bit = 0 ∨ bit = 1 := by
  induction a using Nat.strong_induction_on with
  | _ a ih =>
    rw [d2b_unfold a []]
    by_cases h : a / 2 > 0
    · simp only [h, if_true]
      rw [d2b_append]
      intro bit hb
      rcases List.mem_append.mp hb with h1 | h1
      · exact ih (a / 2) (by omega) bit h1
      · simp at h1; omega
    · simp only [h, if_false]
      intro bit hb
      simp at hb; omega

theorem d2b_fold (a : Nat) : (d2b a []).foldl (fun x bit => 2 * x + bit) 0 = a := by
  induction a using Nat.strong_induction_on with
  | _ a ih =>
    rw [d2b_unfold a []]
    by_cases h : a / 2 > 0
    · simp only [h, if_true]
      rw [d2b_append, List.foldl_append, ih (a / 2) (by omega)]
      simp only [List.foldl_cons, List.foldl_nil]
      omega
    · simp only [h, if_false]
      simp only [List.foldl_cons, List.foldl_nil]
      omega

theorem d2b_zero : d2b 0 [] = [0] := by
  rw [d2b_unfold]
  simp

theorem lseek_range (f_pos offset orig : Int) :
    0 ≤ (fib_device_lseek f_pos offset orig).1 ∧ (fib_device_lseek f_pos offset orig).1 ≤ 500 := by
  unfold fib_device_lseek MAX_LENGTH
  simp only
  constructor <;> split <;> split <;> omega

theorem lseek_set (f_pos offset : Int) (h0 : 0 ≤ offset) (h1 : offset ≤ 500) :
    (fib_device_lseek f_pos offset 0).1 = offset := by
  unfold fib_device_lseek MAX_LENGTH
  have h2 : ¬ (offset > 500) := by omega
  have h3 : ¬ (offset < 0) := by omega
  simp [h2, h3]

theorem fast_double_squares (s : FastState) (n : Nat) (hn : 1 ≤ n)
    (h0 : Holds s.f0 (Nat.fib n)) (h1 : Holds s.f1 (Nat.fib (n + 1))) :
    Holds (fast_double s).tmp2 (Nat.fib n * Nat.fib n) ∧
      Holds (fast_double s).tmp1 (Nat.fib (n + 1) * Nat.fib (n + 1)) := by
  have hpos : 0 < Nat.fib n := Nat.fib_pos.mpr (by omega)
  have hpos1 : 0 < Nat.fib (n + 1) := Nat.fib_pos.mpr (by omega)
  have hsq0 := holds_mul s.f0 s.f0 (memset 48) _ _ h0 h0 hpos hpos (read_memset 48)
  have hsq1 := holds_mul s.f1 s.f1 (memset 48) _ _ h1 h1 hpos1 hpos1 (read_memset 48)
  unfold fast_double
  dsimp only
  exact ⟨hsq0, hsq1⟩

theorem pop_snd (l : List Nat) : (pop l).2 = l.drop 1 := by
  cases l <;> rfl

theorem pop_fst_d2b (k : Nat) (hk : 1 ≤ k) : (pop (d2b k [])).1 = 1 := by
  obtain ⟨rest, hr⟩ := d2b_head k hk
  rw [hr]
  rfl

/-- C13: for every `k ≥ 2`, `string_add` applied to the strings `fib_fast_str`
returns for `k - 2` and `k - 1` leaves the string it returns for `k`. -/
theorem fib_fast_str_recurrence (k : Nat) (hk : 2 ≤ k) (t1 t2 u1 u2 v1 v2 out : Buf) :
    cstr (string_add (ofStr (fib_fast_str (k - 2) t1 t2 []).out)
        (ofStr (fib_fast_str (k - 1) u1 u2 []).out) out)
      = (fib_fast_str k v1 v2 []).out := by
  obtain ⟨m, rfl⟩ : ∃ m, k = m + 2 := ⟨k - 2, by omega⟩
  exact fib_fast_str_add m t1 t2 u1 u2 v1 v2 out

/-- Witness of C13 at `k = 12`: "55" + "89" is "144". -/
theorem fib_fast_str_recurrence_witness :
    cstr (string_add (ofStr (fib_fast_str (12 - 2) (memset 0) (memset 0) []).out)
        (ofStr (fib_fast_str (12 - 1) (memset 0) (memset 0) []).out) (memset 0))
      = (fib_fast_str 12 (memset 0) (memset 0) []).out :=
  fib_fast_str_recurrence 12 (by decide) (memset 0) (memset 0) (memset 0) (memset 0)
    (memset 0) (memset 0) (memset 0)

/-- C15: the loop invariant of `fib_fast_str`.  If the two nodes hold the
numerals of `F(n)` and `F(n+1)`, `n ≥ 1`, then after the doubling step they hold
those of `F(2n)` and `F(2n+1)`, the squares in `tmp2` and `tmp1` being those
of the values before the update; a round that pops a non-zero bit ends with
`F(2n+1)` and `F(2n+2)`, a round that pops 0 with `F(2n)` and `F(2n+1)`. -/
theorem fast_doubling_invariant (s : FastState) (n : Nat) (hn : 1 ≤ n)
    (h0 : Holds s.f0 (F n)) (h1 : Holds s.f1 (F (n + 1))) :
    Holds (fast_double s).f0 (F (2 * n)) ∧ Holds (fast_double s).f1 (F (2 * n + 1)) ∧
    Holds (fast_double s).tmp2 (F n * F n) ∧
    Holds (fast_double s).tmp1 (F (n + 1) * F (n + 1)) ∧
    (∀ bit rest, s.top = bit :: rest → bit ≠ 0 →
      Holds (fast_body s).f0 (F (2 * n + 1)) ∧ Holds (fast_body s).f1 (F (2 * n + 2)) ∧
      (fast_body s).top = rest) ∧
    (∀ bit rest, s.top = bit :: rest → bit = 0 →
      Holds (fast_body s).f0 (F (2 * n)) ∧ Holds (fast_body s).f1 (F (2 * n + 1)) ∧
      (fast_body s).top = rest) := by
  simp only [F_eq_fib] at h0 h1 ⊢
  obtain ⟨d0, d1, _⟩ := fast_double_spec s n hn h0 h1
  obtain ⟨q0, q1⟩ := fast_double_squares s n hn h0 h1
  refine ⟨d0, d1, q0, q1, ?_, ?_⟩
  · intro bit rest htop hbit
    have := fast_body_spec s n bit rest hn h0 h1 htop
    simpa [hbit] using this
  · intro bit rest htop hbit
    have := fast_body_spec s n bit rest hn h0 h1 htop
    simpa [hbit] using this

/-- Witness of C15 on the state (F(1), F(2)) = ("1", "1") with the bit 1 on the stack. -/
theorem fast_doubling_invariant_witness :
    Holds (fast_double ⟨ofStr (chars "1"), ofStr (chars "1"), memset 0, memset 0, [1]⟩).f0
      (F (2 * 1)) ∧
    Holds (fast_double ⟨ofStr (chars "1"), ofStr (chars "1"), memset 0, memset 0, [1]⟩).f1
      (F (2 * 1 + 1)) :=
  ⟨(fast_doubling_invariant ⟨ofStr (chars "1"), ofStr (chars "1"), memset 0, memset 0, [1]⟩ 1
      (by decide) (by decide) (by decide)).1,
   (fast_doubling_invariant ⟨ofStr (chars "1"), ofStr (chars "1"), memset 0, memset 0, [1]⟩ 1
      (by decide) (by decide) (by decide)).2.1⟩

/-- C16: `d2b` is total, and on an empty stack `d2b(k)` leaves the binary
expansion of `k`, most significant bit on top: every entry is 0 or 1 and
folding them by `x -> 2x + bit` from 0 gives `k`; for `k = 0` the stack is
the single bit 0; for `k ≥ 1` it has `floor(log2 k) + 1` entries and the first
one popped is 1.  On a non-empty stack the bits go on top of what was there. -/
theorem d2b_binary (k : Nat) :
    (d2b k []).foldl (fun x bit => 2 * x + bit) 0 = k ∧
    (∀ bit, bit ∈ d2b k [] → bit = 0 ∨ bit = 1) ∧
    (∀ top, d2b k top = d2b k [] ++ top) ∧
    (k = 0 → d2b k [] = [0]) ∧
    (1 ≤ k → (d2b k []).length = Nat.log 2 k + 1 ∧ (pop (d2b k [])).1 = 1) := by
  refine ⟨d2b_fold k, d2b_bits k, d2b_append k, ?_, ?_⟩
  · intro h
    subst h
    exact d2b_zero
  · intro hk
    exact ⟨d2b_length k hk, pop_fst_d2b k hk⟩

/-- Witness of C16 at `k = 6` (binary 110) and at `k = 0`. -/
theorem d2b_binary_witness :
    d2b 0 [] = [0] ∧ (d2b 6 []).length = Nat.log 2 6 + 1 ∧ (pop (d2b 6 [])).1 = 1 ∧
    d2b 6 [] = [1, 1, 0] :=
  ⟨(d2b_binary 0).2.2.2.1 rfl, ((d2b_binary 6).2.2.2.2 (by decide)).1,
    ((d2b_binary 6).2.2.2.2 (by decide)).2, by simp [d2b_unfold]⟩

/-- C17: started on an empty stack, `fib_fast_str(k)` returns with the stack
empty again.  For `k ≥ 1` the loop is entered with all bits of `d2b(k)` but
the first on the stack, every round pops exactly one of them, and the loop
ends after as many rounds as bits were left. -/
theorem fib_fast_str_stack (k : Nat) (tmp1 tmp2 : Buf) :
    (fib_fast_str k tmp1 tmp2 []).top = [] ∧
    (∀ i, (fast_loop i (fast_start (k + 1) tmp1 tmp2 [])).top = (d2b (k + 1) []).drop (i + 1)) ∧
    fib_fast_end (k + 1) tmp1 tmp2 []
      = fast_loop ((d2b (k + 1) []).length - 1) (fast_start (k + 1) tmp1 tmp2 []) := by
  refine ⟨?_, ?_, ?_⟩
  · exact (fib_fast_end_spec k tmp1 tmp2).2
  · intro i
    rw [fast_loop_top]
    simp [fast_start, pop_snd, Nat.add_comm]
  · rw [fib_fast_end_eq (k + 1) (by omega)]
    simp [fast_start, pop_snd]

/-- C18: on "1" + "2" with an `out` buffer full of 'x', `string_add` of
`fibdrv.c` leaves the string "x3", `string_add` of `fast_fibdrv.c` leaves "3". -/
theorem seq_string_add_stray_byte :
    DigitStr (ofStr (chars "1")) ∧ DigitStr (ofStr (chars "2")) ∧
    cstr (Seq.string_add (ofStr (chars "1")) (ofStr (chars "2")) (memset 120)) = chars "x3" ∧
    cstr (string_add (ofStr (chars "1")) (ofStr (chars "2")) (memset 120)) = chars "3" := by
  decide

/-- C19: whatever the current position, the offset and `orig`,
`fib_device_lseek` returns the position it stores in `f_pos`, and that
position lies in 0..500; for `SEEK_SET` (`orig = 0`) with an offset in 0..500
it is the offset. -/
theorem lseek_clamped (f_pos offset orig : Int) :
    (fib_device_lseek f_pos offset orig).2 = (fib_device_lseek f_pos offset orig).1 ∧
    0 ≤ (fib_device_lseek f_pos offset orig).1 ∧
    (fib_device_lseek f_pos offset orig).1 ≤ 500 ∧
    (orig = 0 → 0 ≤ offset → offset ≤ 500 → (fib_device_lseek f_pos offset orig).1 = offset) := by
  refine ⟨rfl, (lseek_range f_pos offset orig).1, (lseek_range f_pos offset orig).2, ?_⟩
  intro h h0 h1
  subst h
  exact lseek_set f_pos offset h0 h1

/-- Witness of C19: `SEEK_SET` to 42 from position 7. -/
theorem lseek_clamped_witness : (fib_device_lseek 7 42 0).1 = 42 :=
  (lseek_clamped 7 42 0).2.2.2 rfl (by decide) (by decide)

/-! ## How far the writes reach -/

theorem size_write (b : Buf) (i v : Nat) : (b.write i v).size = max b.size (i + 1) := by
  unfold Buf.write Buf.size
  split
  · simp only [List.length_set]
    omega
  · simp only [List.length_append, List.length_replicate, List.length_singleton]
    omega

theorem size_memset (c : Nat) : (memset c).size = 0 := rfl

theorem strlen_le_size (x : Buf) : strlen x ≤ x.size := strlenCells_le x.cells

theorem size_swap (x : Buf) (i j : Nat) (hi : i < x.size) (hj : j < x.size) :
    (_swap x i j).size = x.size := by
  unfold _swap
  simp only [size_write]
  omega

theorem size_reverse_loop (fuel : Nat) : ∀ (i : Nat) (x : Buf),
    (_reverse_loop fuel i x).size = x.size := by
  induction fuel with
  | zero => intro i x; rfl
  | succ fuel ih =>
    intro i x
    unfold _reverse_loop
    split
    · rename_i h
      rw [Nat.shiftRight_eq_div_pow, pow_one] at h
      have hs := strlen_le_size x
      split
      · exact ih _ _
      · rw [ih, size_swap x _ _ (by omega) (by omega)]
    · rfl

theorem size_reverse (x : Buf) : (_reverse x).size = x.size :=
  size_reverse_loop _ _ _

theorem add_body_out (a b : Buf) (la lb i : Nat) (s : AddState) :
    ∃ v, (string_add_body a b la lb i s).out = s.out.write i v := by
  unfold string_add_body
  simp only
  split_ifs <;> exact ⟨_, rfl⟩

theorem add_loop_size (a b : Buf) (la lb : Nat) (s0 : AddState) (n : Nat) :
    (forLoop n (string_add_body a b la lb) s0).out.size ≤ max s0.out.size n := by
  induction n with
  | zero => simp [forLoop]
  | succ n ih =>
    simp only [forLoop]
    obtain ⟨v, hv⟩ := add_body_out a b la lb n (forLoop n (string_add_body a b la lb) s0)
    rw [hv, size_write]
    omega

theorem string_add_size (a b out : Buf) :
    (string_add a b out).size ≤ max out.size (max (strlen a) (strlen b) + 2) := by
  unfold string_add
  simp only [max_eq]
  have h := add_loop_size a b (strlen a) (strlen b) ⟨out, 0, 0⟩ (max (strlen a) (strlen b))
  simp only at h
  split
  · rw [size_reverse, size_write, size_write]
    omega
  · rw [size_reverse, size_write]
    omega

theorem sub_body_out (a b : Buf) (i : Nat) (s : SubState) :
    (string_sub_body a b i s).out = s.out ∨
      ∃ v, (string_sub_body a b i s).out = s.out.write i v := by
  unfold string_sub_body
  simp only
  split_ifs <;> first | (left; rfl) | (right; exact ⟨_, rfl⟩)

theorem sub_loop_size (a b : Buf) (s0 : SubState) (n : Nat) :
    (forLoop n (string_sub_body a b) s0).out.size ≤ max s0.out.size n := by
  induction n with
  | zero => simp [forLoop]
  | succ n ih =>
    simp only [forLoop]
    rcases sub_body_out a b n (forLoop n (string_sub_body a b) s0) with h | ⟨v, h⟩
    · rw [h]; omega
    · rw [h, size_write]; omega

theorem string_sub_size (a b out : Buf) :
    (string_sub a b out).size ≤ max out.size (strlen a + 1) := by
  unfold string_sub
  have h := sub_loop_size a b ⟨out, 0, 0, false⟩ (strlen a)
  simp only at h ⊢
  split
  · rw [size_reverse, size_write]
    omega
  · rw [size_reverse, size_write]
    omega

theorem mul_inner_out (a b : Buf) (ib ia : Nat) (s : MulState) :
    ∃ v, (string_mul_inner a b ib ia s).out = s.out.write (ia + ib) v := by
  unfold string_mul_inner
  simp only
  split_ifs <;> exact ⟨_, rfl⟩

theorem mul_inner_loop_size (a b : Buf) (ib : Nat) (s0 : MulState) (n : Nat) :
    (forLoop n (string_mul_inner a b ib) s0).out.size ≤ max s0.out.size (n + ib) := by
  induction n with
  | zero => simp [forLoop]
  | succ n ih =>
    simp only [forLoop]
    obtain ⟨v, hv⟩ := mul_inner_out a b ib n (forLoop n (string_mul_inner a b ib) s0)
    rw [hv, size_write]
    omega

theorem mul_outer_size (a b : Buf) (ib : Nat) (s : MulState) :
    (string_mul_outer a b ib s).out.size ≤ max s.out.size (strlen a + ib + 1) := by
  unfold string_mul_outer
  simp only
  have h := mul_inner_loop_size a b ib { s with carry := 0 } (strlen a)
  simp only at h
  rw [size_write]
  omega

theorem mul_outer_loop_size (a b : Buf) (s0 : MulState) (n : Nat) :
    (forLoop n (string_mul_outer a b) s0).out.size ≤ max s0.out.size (strlen a + n) := by
  induction n with
  | zero => simp [forLoop]
  | succ n ih =>
    simp only [forLoop]
    have h := mul_outer_size a b n (forLoop n (string_mul_outer a b) s0)
    omega

theorem string_mul_size (a b out : Buf) :
    (string_mul a b out).size ≤ max out.size (strlen a + strlen b + 2) := by
  unfold string_mul
  have h := mul_outer_loop_size a b ⟨out, 0, 0⟩ (strlen b)
  simp only at h ⊢
  split
  · rw [size_reverse, size_write]
    omega
  · rw [size_reverse, size_write]
    omega

theorem strncpy_size (dst src : Buf) (n : Nat) : (strncpy dst src n).size ≤ max dst.size n := by
  induction n with
  | zero => simp [strncpy, forLoop]
  | succ n ih =>
    unfold strncpy at ih ⊢
    simp only [forLoop]
    rw [size_write]
    omega

theorem copy_size (dst src : Buf) :
    ((strncpy dst src (strlen src + 1)).write (strlen src + 1) 0).size
      ≤ max dst.size (strlen src + 2) := by
  rw [size_write]
  have := strncpy_size dst src (strlen src + 1)
  omega

/-! ## Everything one round of the engine produces -/

theorem fib_round_bounds (n : Nat) (hn : 1 ≤ n) :
    Nat.fib (n + 1) + Nat.fib (n + 1) ≤ Nat.fib (2 * n + 2) ∧
    Nat.fib n * Nat.fib n ≤ Nat.fib (2 * n + 2) ∧
    Nat.fib (n + 1) * Nat.fib (n + 1) ≤ Nat.fib (2 * n + 2) ∧
    Nat.fib (2 * n) ≤ Nat.fib (2 * n + 2) ∧
    Nat.fib (2 * n + 1) ≤ Nat.fib (2 * n + 2) := by
  have hA : 1 ≤ Nat.fib n := Nat.fib_pos.mpr (by omega)
  have hB : 1 ≤ Nat.fib (n + 1) := Nat.fib_pos.mpr (by omega)
  have h1 : Nat.fib (2 * n + 1)
      = Nat.fib (n + 1) * Nat.fib (n + 1) + Nat.fib n * Nat.fib n := by
    rw [Nat.fib_two_mul_add_one]; ring
  have h2 : Nat.fib (2 * n + 2) = Nat.fib (2 * n) + Nat.fib (2 * n + 1) := Nat.fib_add_two
  have hAA : 1 ≤ Nat.fib n * Nat.fib n := Nat.mul_pos hA hA
  have hBB : Nat.fib (n + 1) + Nat.fib (n + 1)
      ≤ Nat.fib (n + 1) * Nat.fib (n + 1) + Nat.fib n * Nat.fib n := by
    by_cases hb : Nat.fib (n + 1) = 1
    · rw [hb]; omega
    · have : 2 * Nat.fib (n + 1) ≤ Nat.fib (n + 1) * Nat.fib (n + 1) :=
        Nat.mul_le_mul_right _ (by omega)
      omega
  refine ⟨by omega, by omega, by omega, by omega, by omega⟩

theorem fast_body_cases (s : FastState) :
    ((pop s.top).1 = 0 ∧ (fast_body s).f0 = (fast_double s).f0 ∧
        (fast_body s).f1 = (fast_double s).f1 ∧ (fast_body s).tmp1 = (fast_double s).tmp1) ∨
    ((pop s.top).1 ≠ 0 ∧
      (fast_body s).tmp1 = string_add (fast_double s).f0 (fast_double s).f1 (fast_double s).tmp1 ∧
      (fast_body s).f0 = (strncpy (fast_double s).f0 (fast_double s).f1
          (strlen (fast_double s).f1 + 1)).write (strlen (fast_double s).f1 + 1) 0 ∧
      (fast_body s).f1 = (strncpy (fast_double s).f1
          (string_add (fast_double s).f0 (fast_double s).f1 (fast_double s).tmp1)
          (strlen (string_add (fast_double s).f0 (fast_double s).f1 (fast_double s).tmp1) + 1)).write
          (strlen (string_add (fast_double s).f0 (fast_double s).f1 (fast_double s).tmp1) + 1) 0) := by
  have hd := fast_double_top s
  unfold fast_body
  generalize fast_double s = d at hd ⊢
  dsimp only
  rw [hd]
  by_cases hb : (pop s.top).1 = 0
  · left
    simp only [hb, ne_eq, not_true_eq_false, if_false, and_self]
  · right
    simp only [hb, ne_eq, not_false_eq_true, if_true, true_and]
    unfold fast_advance
    dsimp only
    exact ⟨rfl, rfl, rfl⟩

/-- The values held by the buffers one round writes, entered with
`(F(n), F(n+1))`: each is a normalized numeral of a number up to `F(2n+2)`. -/
theorem fast_outputs_holds (s : FastState) (n : Nat) (hn : 1 ≤ n)
    (h0 : Holds s.f0 (Nat.fib n)) (h1 : Holds s.f1 (Nat.fib (n + 1))) :
    ∀ x, x ∈ fast_outputs s → ∃ v, Holds x v ∧ v ≤ Nat.fib (2 * n + 2) := by
  have hle := fib_le_succ n
  have hpos : 0 < Nat.fib n := Nat.fib_pos.mpr (by omega)
  obtain ⟨b1, b2, b3, b4, b5⟩ := fib_round_bounds n hn
  have ht1 := holds_add s.f1 s.f1 (memset 0) _ _ h1 h1
  have hbig : 10 ^ (strlen (string_add s.f1 s.f1 (memset 0)) - 1)
      ≤ 10 * (Nat.fib (n + 1) + Nat.fib (n + 1) - Nat.fib n) := by
    have := numeral_value_ge _ ht1.1 (by rw [ht1.2]; omega)
    rw [ht1.2] at this
    omega
  have ht2 := holds_sub _ s.f0 (memset 0) _ _ ht1 h0 (by omega) hbig
  have hp := holds_mul s.f0 _ (memset 48) _ _ h0 ht2 hpos (by omega) (read_memset 48)
  have hsq0 := holds_mul s.f0 s.f0 (memset 48) _ _ h0 h0 hpos hpos (read_memset 48)
  have hsq1 := holds_mul s.f1 s.f1 (memset 48) _ _ h1 h1 (by omega) (by omega) (read_memset 48)
  obtain ⟨d0, d1, _⟩ := fast_double_spec s n hn h0 h1
  obtain ⟨_, q1⟩ := fast_double_squares s n hn h0 h1
  have e2n : Nat.fib (2 * n)
      = Nat.fib n * (Nat.fib (n + 1) + Nat.fib (n + 1) - Nat.fib n) := by
    rw [Nat.fib_two_mul, Nat.two_mul]
  intro x hx
  unfold fast_outputs at hx
  simp only [List.mem_cons, List.mem_singleton, List.mem_nil_iff, or_false] at hx
  rcases hx with h | h | h | h | h | h | h | h | h | h <;> rw [h]
  · exact ⟨_, ht1, b1⟩
  · exact ⟨_, ht2, by omega⟩
  · exact ⟨_, hp, by rw [← e2n]; exact b4⟩
  · exact ⟨_, hsq0, b2⟩
  · exact ⟨_, d0, b4⟩
  · exact ⟨_, hsq1, b3⟩
  · exact ⟨_, d1, b5⟩
  · rcases fast_body_cases s with ⟨_, _, _, c3⟩ | ⟨_, c1, _, _⟩
    · rw [c3]; exact ⟨_, q1, b3⟩
    · rw [c1]
      have := holds_add _ _ (fast_double s).tmp1 _ _ d0 d1
      rw [← Nat.fib_add_two] at this
      exact ⟨_, this, le_refl _⟩
  · rcases fast_body_cases s with ⟨_, c1, _, _⟩ | ⟨_, _, c2, _⟩
    · rw [c1]; exact ⟨_, d0, b4⟩
    · rw [c2]; exact ⟨_, holds_copy _ _ _ d1, b5⟩
  · rcases fast_body_cases s with ⟨_, _, c2, _⟩ | ⟨_, _, _, c3⟩
    · rw [c2]; exact ⟨_, d1, b5⟩
    · rw [c3]
      have := holds_add _ _ (fast_double s).tmp1 _ _ d0 d1
      rw [← Nat.fib_add_two] at this
      exact ⟨_, holds_copy _ _ _ this, le_refl _⟩

theorem bitsFrom_cons (n bit : Nat) (rest : List Nat) :
    bitsFrom n (bit :: rest) = bitsFrom (2 * n + (if bit ≠ 0 then 1 else 0)) rest := rfl

theorem bitsFrom_ge (l : List Nat) : ∀ n, n ≤ bitsFrom n l := by
  induction l with
  | nil => intro n; exact le_refl _
  | cons b l ih =>
    intro n
    rw [bitsFrom_cons]
    have := ih (2 * n + (if b ≠ 0 then 1 else 0))
    omega

/-- The states the loop of `fib_fast_str` passes through hold consecutive
Fibonacci numbers, and what is left on the stack spells the rest of the index. -/
theorem fast_loop_reach (i : Nat) : ∀ (s : FastState) (n : Nat), 1 ≤ n →
    Holds s.f0 (Nat.fib n) → Holds s.f1 (Nat.fib (n + 1)) →
    ∃ m, 1 ≤ m ∧ Holds (fast_loop i s).f0 (Nat.fib m) ∧
      Holds (fast_loop i s).f1 (Nat.fib (m + 1)) ∧
      bitsFrom m (fast_loop i s).top = bitsFrom n s.top := by
  induction i with
  | zero => intro s n hn h0 h1; exact ⟨n, hn, h0, h1, rfl⟩
  | succ i ih =>
    intro s n hn h0 h1
    simp only [fast_loop]
    cases hs : s.top with
    | nil =>
      simp only [ne_eq, not_true_eq_false, if_false]
      exact ⟨n, hn, h0, h1, by rw [hs]⟩
    | cons bit rest =>
      simp only [ne_eq, reduceCtorEq, not_false_eq_true, if_true]
      obtain ⟨b0, b1, bt⟩ := fast_body_spec s n bit rest hn h0 h1 hs
      obtain ⟨m, hm, r0, r1, rb⟩ := ih (fast_body s) _ (by omega) b0 b1
      exact ⟨m, hm, r0, r1, by rw [rb, bt, bitsFrom_cons]⟩

theorem fast_start_holds (k : Nat) (tmp1 tmp2 : Buf) (top : List Nat) :
    Holds (fast_start k tmp1 tmp2 top).f0 (Nat.fib 1) ∧
      Holds (fast_start k tmp1 tmp2 top).f1 (Nat.fib (1 + 1)) := by
  unfold fast_start
  dsimp only
  exact ⟨holds_node_init _ _ holds_literal_one, holds_node_init _ _ holds_literal_one⟩

theorem fast_start_bits (k : Nat) (hk : 1 ≤ k) (tmp1 tmp2 : Buf) :
    bitsFrom 1 (fast_start k tmp1 tmp2 []).top = k := d2b_pop k hk

theorem holds_strlen_le (x : Buf) (v N : Nat) (h : Holds x v) (hv : v < 10 ^ N) (hN : 1 ≤ N) :
    strlen x ≤ N := by
  by_contra hlt
  have h2 : 2 ≤ strlen x := by omega
  have h1 := normal_value_ge _ (numeral_normal x h.1) (by rw [cstr_length]; exact h2)
  rw [cstr_length, h.2] at h1
  have h3 : 10 ^ N ≤ 10 ^ (strlen x - 1) := Nat.pow_le_pow_right (by omega) (by omega)
  omega

theorem fib_502_lt : Nat.fib 502 < 10 ^ 105 := by norm_num

theorem fast_double_fields (s : FastState) :
    (fast_double s).f0 = (strncpy s.f0
        (string_mul s.f0 (string_sub (string_add s.f1 s.f1 (memset 0)) s.f0 (memset 0)) (memset 48))
        (strlen (string_mul s.f0 (string_sub (string_add s.f1 s.f1 (memset 0)) s.f0 (memset 0))
          (memset 48)) + 1)).write
        (strlen (string_mul s.f0 (string_sub (string_add s.f1 s.f1 (memset 0)) s.f0 (memset 0))
          (memset 48)) + 1) 0 ∧
    (fast_double s).f1
      = string_add (string_mul s.f1 s.f1 (memset 48)) (string_mul s.f0 s.f0 (memset 48)) s.f1 ∧
    (fast_double s).tmp1 = string_mul s.f1 s.f1 (memset 48) ∧
    (fast_double s).tmp2 = string_mul s.f0 s.f0 (memset 48) := by
  unfold fast_double
  dsimp only
  exact ⟨rfl, rfl, rfl, rfl⟩

theorem fast_body_tmp2 (s : FastState) :
    (fast_body s).tmp2 = string_mul s.f0 s.f0 (memset 48) := by
  have hf := (fast_double_fields s).2.2.2
  unfold fast_body
  generalize fast_double s = d at hf ⊢
  dsimp only
  split
  · unfold fast_advance
    dsimp only
    exact hf
  · exact hf

/-- Entered with `(F(n), F(n+1))`, `2n + 2 ≤ 502`, on nodes no write has gone
past index 255 of, a round writes strings of at most 105 digits and no index
beyond 255. -/
theorem fast_outputs_fit (s : FastState) (n : Nat) (hn : 1 ≤ n)
    (h0 : Holds s.f0 (Nat.fib n)) (h1 : Holds s.f1 (Nat.fib (n + 1)))
    (hk : 2 * n + 2 ≤ 502) (z0 : s.f0.size ≤ 256) (z1 : s.f1.size ≤ 256) :
    ∀ x, x ∈ fast_outputs s → strlen x ≤ 105 ∧ x.size ≤ 256 := by
  have hout := fast_outputs_holds s n hn h0 h1
  have hmono : Nat.fib (2 * n + 2) ≤ Nat.fib 502 := Nat.fib_mono hk
  have hlt := fib_502_lt
  have hlen : ∀ x, x ∈ fast_outputs s → strlen x ≤ 105 := by
    intro x hx
    obtain ⟨v, hv, hvb⟩ := hout x hx
    exact holds_strlen_le x v 105 hv (by omega) (by omega)
  have l0 : strlen s.f0 ≤ 105 :=
    holds_strlen_le _ _ 105 h0 (by have := Nat.fib_mono (show n ≤ 502 by omega); omega) (by omega)
  have l1 : strlen s.f1 ≤ 105 :=
    holds_strlen_le _ _ 105 h1
      (by have := Nat.fib_mono (show n + 1 ≤ 502 by omega); omega) (by omega)
  obtain ⟨e0, e1, e2, _⟩ := fast_double_fields s
  -- lengths of the strings written in the round
  have m1 := hlen (string_add s.f1 s.f1 (memset 0)) (by simp [fast_outputs])
  have m2 := hlen (string_sub (string_add s.f1 s.f1 (memset 0)) s.f0 (memset 0))
    (by simp [fast_outputs])
  have m3 := hlen (string_mul s.f0 (string_sub (string_add s.f1 s.f1 (memset 0)) s.f0 (memset 0))
    (memset 48)) (by simp [fast_outputs])
  have m4 := hlen (string_mul s.f0 s.f0 (memset 48)) (by simp [fast_outputs])
  have m5 := hlen (fast_double s).f0 (by simp [fast_outputs])
  have m6 := hlen (string_mul s.f1 s.f1 (memset 48)) (by simp [fast_outputs])
  have m7 := hlen (fast_double s).f1 (by simp [fast_outputs])
  have m8 := hlen (fast_body s).tmp1 (by simp [fast_outputs])
  -- how far the writes reach
  have s1 := string_add_size s.f1 s.f1 (memset 0)
  have s2 := string_sub_size (string_add s.f1 s.f1 (memset 0)) s.f0 (memset 0)
  have s3 := string_mul_size s.f0 (string_sub (string_add s.f1 s.f1 (memset 0)) s.f0 (memset 0))
    (memset 48)
  have s4 := string_mul_size s.f0 s.f0 (memset 48)
  have s6 := string_mul_size s.f1 s.f1 (memset 48)
  have s5 : (fast_double s).f0.size ≤ 256 := by
    rw [e0]
    have := copy_size s.f0
      (string_mul s.f0 (string_sub (string_add s.f1 s.f1 (memset 0)) s.f0 (memset 0)) (memset 48))
    omega
  have s7 : (fast_double s).f1.size ≤ 256 := by
    rw [e1]
    have := string_add_size (string_mul s.f1 s.f1 (memset 48)) (string_mul s.f0 s.f0 (memset 48))
      s.f1
    omega
  rw [size_memset] at s1 s2 s3 s4 s6
  have c8 : (fast_body s).tmp1.size ≤ 256 := by
    rcases fast_body_cases s with ⟨_, _, _, c3⟩ | ⟨_, c1, _, _⟩
    · rw [c3, e2]; omega
    · rw [c1]
      have := string_add_size (fast_double s).f0 (fast_double s).f1 (fast_double s).tmp1
      have hs : (fast_double s).tmp1.size ≤ 256 := by rw [e2]; omega
      omega
  have c9 : (fast_body s).f0.size ≤ 256 := by
    rcases fast_body_cases s with ⟨_, c1, _, _⟩ | ⟨_, _, c2, _⟩
    · rw [c1]; exact s5
    · rw [c2]
      have := copy_size (fast_double s).f0 (fast_double s).f1
      omega
  have c10 : (fast_body s).f1.size ≤ 256 := by
    rcases fast_body_cases s with ⟨_, _, c2, _⟩ | ⟨_, c1, _, c3⟩
    · rw [c2]; exact s7
    · rw [c3]
      have := copy_size (fast_double s).f1
        (string_add (fast_double s).f0 (fast_double s).f1 (fast_double s).tmp1)
      rw [c1] at m8
      omega
  intro x hx
  refine ⟨hlen x hx, ?_⟩
  unfold fast_outputs at hx
  simp only [List.mem_cons, List.mem_singleton, List.mem_nil_iff, or_false] at hx
  rcases hx with h | h | h | h | h | h | h | h | h | h <;> rw [h]
  · omega
  · omega
  · omega
  · omega
  · exact s5
  · omega
  · exact s7
  · exact c8
  · exact c9
  · exact c10

/-- For `k ≤ 500` every state the loop passes through keeps its four arrays
within 256 bytes. -/
theorem fast_loop_fit (k : Nat) (hk : k ≤ 500) (i : Nat) : ∀ (s : FastState) (n : Nat), 1 ≤ n →
    Holds s.f0 (Nat.fib n) → Holds s.f1 (Nat.fib (n + 1)) → bitsFrom n s.top = k →
    s.f0.size ≤ 256 → s.f1.size ≤ 256 → s.tmp1.size ≤ 256 → s.tmp2.size ≤ 256 →
    ∃ m, 1 ≤ m ∧ Holds (fast_loop i s).f0 (Nat.fib m) ∧
      Holds (fast_loop i s).f1 (Nat.fib (m + 1)) ∧ bitsFrom m (fast_loop i s).top = k ∧
      (fast_loop i s).f0.size ≤ 256 ∧ (fast_loop i s).f1.size ≤ 256 ∧
      (fast_loop i s).tmp1.size ≤ 256 ∧ (fast_loop i s).tmp2.size ≤ 256 := by
  induction i with
  | zero => intro s n hn h0 h1 hb z0 z1 z2 z3; exact ⟨n, hn, h0, h1, hb, z0, z1, z2, z3⟩
  | succ i ih =>
    intro s n hn h0 h1 hb z0 z1 z2 z3
    simp only [fast_loop]
    cases hs : s.top with
    | nil =>
      simp only [ne_eq, not_true_eq_false, if_false]
      exact ⟨n, hn, h0, h1, by rw [hs] at hb; rw [hs]; exact hb, z0, z1, z2, z3⟩
    | cons bit rest =>
      simp only [ne_eq, reduceCtorEq, not_false_eq_true, if_true]
      obtain ⟨b0, b1, bt⟩ := fast_body_spec s n bit rest hn h0 h1 hs
      rw [hs, bitsFrom_cons] at hb
      have hge := bitsFrom_ge rest (2 * n + (if bit ≠ 0 then 1 else 0))
      have hfit := fast_outputs_fit s n hn h0 h1 (by omega) z0 z1
      have f0 := (hfit (fast_body s).f0 (by simp [fast_outputs])).2
      have f1 := (hfit (fast_body s).f1 (by simp [fast_outputs])).2
      have f2 := (hfit (fast_body s).tmp1 (by simp [fast_outputs])).2
      have f3 := (hfit (string_mul s.f0 s.f0 (memset 48)) (by simp [fast_outputs])).2
      rw [← fast_body_tmp2 s] at f3
      exact ih (fast_body s) _ (by omega) b0 b1 (by rw [bt]; exact hb) f0 f1 f2 f3

theorem node_init_size (str : Buf) : (node_init str).size ≤ strlen str + 2 := by
  unfold node_init
  have := copy_size (memset 48) str
  rw [size_memset] at this
  simp only at this ⊢
  omega

theorem fib_fast_end_holds (k : Nat) (tmp1 tmp2 : Buf) :
    ∃ m, Holds (fib_fast_end k tmp1 tmp2 []).f0 (Nat.fib m) ∧
      Holds (fib_fast_end k tmp1 tmp2 []).f1 (Nat.fib (m + 1)) ∨
      Holds (fib_fast_end k tmp1 tmp2 []).f0 0 ∧ Holds (fib_fast_end k tmp1 tmp2 []).f1 0 := by
  by_cases hk : k = 0
  · subst hk
    refine ⟨0, Or.inr ?_⟩
    unfold fib_fast_end
    simp only [if_true]
    exact ⟨holds_node_init _ _ holds_literal_zero, holds_node_init _ _ holds_literal_zero⟩
  · rw [fib_fast_end_eq k hk]
    obtain ⟨h0, h1⟩ := fast_start_holds k tmp1 tmp2 []
    obtain ⟨m, _, r0, r1, _⟩ := fast_loop_reach (fast_start k tmp1 tmp2 []).top.length
      (fast_start k tmp1 tmp2 []) 1 (le_refl _) h0 h1
    exact ⟨m, Or.inl ⟨r0, r1⟩⟩

/-- C11: every string `fib_fast_str(k)` produces is a normalized numeral: the
string it returns, both nodes at the label `end`, both nodes every time the
loop condition is tested, and every buffer a round of the loop writes (the
outputs of all `string_add`, `string_sub` and `string_mul` calls included). -/
theorem fib_fast_str_numerals (k : Nat) (tmp1 tmp2 : Buf) :
    NormalList (fib_fast_str k tmp1 tmp2 []).out ∧
    Numeral (fib_fast_end k tmp1 tmp2 []).f0 ∧ Numeral (fib_fast_end k tmp1 tmp2 []).f1 ∧
    ∀ i, Numeral (fast_loop i (fast_start (k + 1) tmp1 tmp2 [])).f0 ∧
      Numeral (fast_loop i (fast_start (k + 1) tmp1 tmp2 [])).f1 ∧
      ((fast_loop i (fast_start (k + 1) tmp1 tmp2 [])).top ≠ [] →
        ∀ x, x ∈ fast_outputs (fast_loop i (fast_start (k + 1) tmp1 tmp2 [])) → Numeral x) := by
  refine ⟨?_, ?_, ?_, ?_⟩
  · rw [fib_fast_str_out]
    exact decimal_normal _
  · exact (fib_fast_end_spec k tmp1 tmp2).1.1
  · obtain ⟨m, h | h⟩ := fib_fast_end_holds k tmp1 tmp2
    · exact h.2.1
    · exact h.2.1
  · intro i
    obtain ⟨h0, h1⟩ := fast_start_holds (k + 1) tmp1 tmp2 []
    obtain ⟨m, hm, r0, r1, _⟩ := fast_loop_reach i (fast_start (k + 1) tmp1 tmp2 []) 1
      (le_refl _) h0 h1
    refine ⟨r0.1, r1.1, ?_⟩
    intro _ x hx
    obtain ⟨v, hv, _⟩ := fast_outputs_holds _ m hm r0 r1 x hx
    exact hv.1

/-- Witness of C11 at `k = 5`, first round: the stack is not empty and the
sum `b + b` the round starts with is a normalized numeral. -/
theorem fib_fast_str_numerals_witness :
    (fast_loop 0 (fast_start (4 + 1) (memset 0) (memset 0) [])).top ≠ [] ∧
    Numeral (string_add (fast_loop 0 (fast_start (4 + 1) (memset 0) (memset 0) [])).f1
      (fast_loop 0 (fast_start (4 + 1) (memset 0) (memset 0) [])).f1 (memset 0)) :=
  ⟨by simp [fast_loop, fast_start, d2b_unfold, pop],
   ((fib_fast_str_numerals 4 (memset 0) (memset 0)).2.2.2 0).2.2
      (by simp [fast_loop, fast_start, d2b_unfold, pop]) _ (by simp [fast_outputs])⟩

/-- C12: for `0 ≤ k ≤ 500`, with `tmp1` and `tmp2` arrays of `MAX_DATA_SIZE`
bytes, every string `fib_fast_str(k)` writes has at most 255 digits and no
write goes to an index of `MAX_DATA_SIZE` or more: this holds for the four
arrays at the label `end`, for them every time the loop condition is tested,
and for every buffer a round of the loop writes. -/
theorem fib_fast_str_fits (k : Nat) (hk : k ≤ 500) (tmp1 tmp2 : Buf)
    (z1 : tmp1.size ≤ MAX_DATA_SIZE) (z2 : tmp2.size ≤ MAX_DATA_SIZE) :
    (strlen (fib_fast_end k tmp1 tmp2 []).f0 ≤ MAX_DATA_SIZE - 1 ∧
      (fib_fast_end k tmp1 tmp2 []).f0.size ≤ MAX_DATA_SIZE ∧
      (fib_fast_end k tmp1 tmp2 []).f1.size ≤ MAX_DATA_SIZE ∧
      (fib_fast_end k tmp1 tmp2 []).tmp1.size ≤ MAX_DATA_SIZE ∧
      (fib_fast_end k tmp1 tmp2 []).tmp2.size ≤ MAX_DATA_SIZE) ∧
    (1 ≤ k → ∀ i,
      strlen (fast_loop i (fast_start k tmp1 tmp2 [])).f0 ≤ MAX_DATA_SIZE - 1 ∧
      strlen (fast_loop i (fast_start k tmp1 tmp2 [])).f1 ≤ MAX_DATA_SIZE - 1 ∧
      (fast_loop i (fast_start k tmp1 tmp2 [])).f0.size ≤ MAX_DATA_SIZE ∧
      (fast_loop i (fast_start k tmp1 tmp2 [])).f1.size ≤ MAX_DATA_SIZE ∧
      (fast_loop i (fast_start k tmp1 tmp2 [])).tmp1.size ≤ MAX_DATA_SIZE ∧
      (fast_loop i (fast_start k tmp1 tmp2 [])).tmp2.size ≤ MAX_DATA_SIZE ∧
      ((fast_loop i (fast_start k tmp1 tmp2 [])).top ≠ [] →
        ∀ x, x ∈ fast_outputs (fast_loop i (fast_start k tmp1 tmp2 [])) →
          strlen x ≤ MAX_DATA_SIZE - 1 ∧ x.size ≤ MAX_DATA_SIZE)) := by
  unfold MAX_DATA_SIZE at *
  have hlt := fib_502_lt
  have key : 1 ≤ k → ∀ i,
      strlen (fast_loop i (fast_start k tmp1 tmp2 [])).f0 ≤ 105 ∧
      strlen (fast_loop i (fast_start k tmp1 tmp2 [])).f1 ≤ 105 ∧
      (fast_loop i (fast_start k tmp1 tmp2 [])).f0.size ≤ 256 ∧
      (fast_loop i (fast_start k tmp1 tmp2 [])).f1.size ≤ 256 ∧
      (fast_loop i (fast_start k tmp1 tmp2 [])).tmp1.size ≤ 256 ∧
      (fast_loop i (fast_start k tmp1 tmp2 [])).tmp2.size ≤ 256 ∧
      ((fast_loop i (fast_start k tmp1 tmp2 [])).top ≠ [] →
        ∀ x, x ∈ fast_outputs (fast_loop i (fast_start k tmp1 tmp2 [])) →
          strlen x ≤ 105 ∧ x.size ≤ 256) := by
    intro hk1 i
    obtain ⟨h0, h1⟩ := fast_start_holds k tmp1 tmp2 []
    have n0 : (fast_start k tmp1 tmp2 []).f0.size ≤ 256 := by
      have := node_init_size (ofStr [49])
      have e : strlen (ofStr [49]) = 1 := by decide
      unfold fast_start
      dsimp only
      omega
    have n1 : (fast_start k tmp1 tmp2 []).f1.size ≤ 256 := by
      have := node_init_size (ofStr [49])
      have e : strlen (ofStr [49]) = 1 := by decide
      unfold fast_start
      dsimp only
      omega
    obtain ⟨m, hm, r0, r1, rb, y0, y1, y2, y3⟩ := fast_loop_fit k hk i
      (fast_start k tmp1 tmp2 []) 1 (le_refl _) h0 h1 (fast_start_bits k hk1 tmp1 tmp2)
      n0 n1 z1 z2
    have hmk := bitsFrom_ge (fast_loop i (fast_start k tmp1 tmp2 [])).top m
    rw [rb] at hmk
    have l0 := holds_strlen_le _ _ 105 r0
      (by have := Nat.fib_mono (show m ≤ 502 by omega); omega) (by omega)
    have l1 := holds_strlen_le _ _ 105 r1
      (by have := Nat.fib_mono (show m + 1 ≤ 502 by omega); omega) (by omega)
    refine ⟨l0, l1, y0, y1, y2, y3, ?_⟩
    intro htop
    obtain ⟨bit, rest, hbr⟩ : ∃ bit rest,
        (fast_loop i (fast_start k tmp1 tmp2 [])).top = bit :: rest := by
      cases h : (fast_loop i (fast_start k tmp1 tmp2 [])).top with
      | nil => exact absurd h htop
      | cons b r => exact ⟨b, r, rfl⟩
    rw [hbr, bitsFrom_cons] at rb
    have hge := bitsFrom_ge rest (2 * m + (if bit ≠ 0 then 1 else 0))
    exact fast_outputs_fit _ m hm r0 r1 (by omega) y0 y1
  constructor
  · by_cases hk0 : k = 0
    · subst hk0
      unfold fib_fast_end
      simp only [if_true]
      have hz := holds_node_init _ _ holds_literal_zero
      have l := holds_strlen_le _ _ 105 hz (by norm_num) (by omega)
      have sz := node_init_size (ofStr [48])
      have e : strlen (ofStr [48]) = 1 := by decide
      refine ⟨by omega, by omega, by omega, z1, z2⟩
    · rw [fib_fast_end_eq k hk0]
      obtain ⟨l0, _, y0, y1, y2, y3, _⟩ := key (by omega) (fast_start k tmp1 tmp2 []).top.length
      exact ⟨by omega, y0, y1, y2, y3⟩
  · intro hk1 i
    obtain ⟨l0, l1, y0, y1, y2, y3, hx⟩ := key hk1 i
    refine ⟨by omega, by omega, y0, y1, y2, y3, ?_⟩
    intro htop x hxm
    have := hx htop x hxm
    exact ⟨by omega, this.2⟩

/-- Witness of C12 at `k = 500`. -/
theorem fib_fast_str_fits_witness :
    strlen (fib_fast_end 500 (memset 0) (memset 0) []).f0 ≤ MAX_DATA_SIZE - 1 ∧
    (fib_fast_end 500 (memset 0) (memset 0) []).f0.size ≤ MAX_DATA_SIZE :=
  ⟨(fib_fast_str_fits 500 (by decide) (memset 0) (memset 0) (by decide) (by decide)).1.1,
   (fib_fast_str_fits 500 (by decide) (memset 0) (memset 0) (by decide) (by decide)).1.2.1⟩

end Fibdrv
